import Mathlib

/-!
# Verification of the cockpit histogram engine and tracking state

Shallow embedding of `backboard/quantities/utils_hists.py` (the N-dimensional
histogram engine and its two-dimensional fast path) and of
`backboard/tracking/tracking.py` (the iteration-tracking functions), with
theorems settling the frozen claims about them.

Floating-point tensors are modelled by exact rationals; integer (`long`)
tensors by `ℤ`.  A `D x N` sample tensor is a list of `D` rows of length `N`.
-/

/-- A D x N sample tensor: the i-th entry is the list of positions in the i-th
coordinate, the j-th column the coordinates of the j-th item. -/
abbrev Sample := List (List ℚ)

/-- Number of observations `N`: the length of the first row (`sample.shape[1]`). -/
def sampleN (s : Sample) : ℕ := (s.headD []).length

/-- All rows have the common length `N` (tensors are rectangular). -/
def SampleWF (s : Sample) : Prop := ∀ r ∈ s, r.length = sampleN s

instance : DecidablePred SampleWF := fun s =>
  inferInstanceAs (Decidable (∀ r ∈ s, r.length = sampleN s))

/-- The `bins` argument of `histogramdd`: `None`, a python int, or a list of ints. -/
inductive BinsSpec where
  | noBins
  | intBins (n : ℤ)
  | listBins (ns : List ℤ)
deriving DecidableEq

/-- Failures of `histogramdd` (python exceptions), in the order the code can raise them. -/
inductive HistError where
  /-- `ValueError("The number of bins must be a positive integer.")`, line 89 -/
  | nonpositiveBins
  /-- `IndexError` while resolving an explicit `range` list shorter than `D`, line 124 -/
  | rangeDimMismatch
  /-- `ValueError("Max must be greater than min in range parameters.")`, line 139 -/
  | maxLtMin
  /-- shape errors raised at lines 141/145 when a list `bins` has length differing from `D` -/
  | binsDimMismatch
  /-- `AssertionError("weights has to be None")`, line 161 -/
  | weightsNotNone
  /-- `IndexError` on `multiindex[0]` for a zero-dimensional sample, line 163 -/
  | zeroDims
deriving DecidableEq

/-- Result of a histogram call: the count tensor (flattened row-major, together
with its shape) plus the per-dimension bin edges. -/
structure HistOut where
  shape : List ℤ
  counts : List ℕ
  edges : List (List ℚ)
deriving DecidableEq

/-- `torch.min` of a 1-D nonempty tensor. -/
def tmin : List ℚ → ℚ
  | [] => 0
  | a :: t => t.foldr min a

/-- `torch.max` of a 1-D nonempty tensor. -/
def tmax : List ℚ → ℚ
  | [] => 0
  | a :: t => t.foldr max a

/-- `torch.linspace lo hi steps`. -/
def linspace (lo hi : ℚ) (steps : ℕ) : List ℚ :=
  if steps = 0 then []
  else if steps = 1 then [lo]
  else (List.range steps).map (fun j => lo + (hi - lo) * j / (steps - 1))

/-- `Tensor.long()`: truncation of a float toward zero. -/
def ratLong (q : ℚ) : ℤ := if 0 ≤ q then ⌊q⌋ else -⌊-q⌋

/-- Lines 51-87: resolve the `bins` argument into a per-dimension bin-count
vector of length `D` (`None` defaults to 10 bins, an int is broadcast, a list
is converted as given). -/
def resolveBins (D : ℕ) (bins : BinsSpec) : List ℤ :=
  match bins with
  | .noBins => List.replicate D 10
  | .intBins n => List.replicate D n
  | .listBins ns => ns

/-- Lines 112-132: resolve the `range` argument, before degenerate-range
padding.  `None` is derived from the data: `[0, 1]` per dimension for an empty
sample, else the per-row min/max.  An explicit range is read pairwise into a
`2 x D` tensor (only its first `D` pairs are consumed). -/
def preRanges (s : Sample) (range : Option (List (ℚ × ℚ))) : List (ℚ × ℚ) :=
  match range with
  | some rs => rs.take s.length
  | none =>
      if sampleN s = 0 then s.map (fun _ => (0, 1))
      else s.map (fun row => (tmin row, tmax row))

/-- Lines 133-137: a range consisting of only one point is padded up by 0.5 on
each side. -/
def padRange (p : ℚ × ℚ) : ℚ × ℚ := if p.1 = p.2 then (p.1 - 1/2, p.2 + 1/2) else p

/-- The effective per-dimension ranges used for binning. -/
def effRanges (s : Sample) (range : Option (List (ℚ × ℚ))) : List (ℚ × ℚ) :=
  (preRanges s range).map padRange

/-- Lines 144-153: the bin index of value `v` for `b` uniform bins over range
`p`: `k = (tranges[0] + v * tranges[1]).long()` with
`tranges[1] = b / (max - min)` and `tranges[0] = 1 - min * tranges[1]`, then
clamped below by `0` (underflow) and above by `b + 1` (overflow). -/
def clampIdx (b : ℤ) (p : ℚ × ℚ) (v : ℚ) : ℤ :=
  min (max (ratLong ((1 - p.1 * ((b : ℚ) / (p.2 - p.1))) + v * ((b : ℚ) / (p.2 - p.1)))) 0)
    (b + 1)

/-- Product of `(b + 2)` over a bin vector: the size of the padded count tensor. -/
def prodBins (bs : List ℤ) : ℤ := (bs.map (· + 2)).prod

/-- Lines 155-157: row-major strides of the padded shape `(bs[i] + 2)`:
`multiindex[j] = prod over m > j of (bs[m] + 2)`. -/
def strides : List ℤ → List ℤ
  | [] => []
  | _ :: rest => prodBins rest :: strides rest

/-- Per-dimension clamped bin indices of one observation column. -/
def kvec : List ℤ → List (ℚ × ℚ) → List ℚ → List ℤ
  | b :: bs, r :: rs, v :: vs => clampIdx b r v :: kvec bs rs vs
  | _, _, _ => []

/-- Lines 158-159: flatten a per-dimension index vector into one linear index. -/
def encIdx (bs : List ℤ) (ks : List ℤ) : ℤ :=
  (List.zipWith (· * ·) (strides bs) ks).sum

/-- The j-th observation (j-th column of the sample). -/
def column (s : Sample) (j : ℕ) : List ℚ := s.map (fun r => r.getD j 0)

/-- The linear bin index of every observation (the tensor `l` of line 159). -/
def lvals (bs : List ℤ) (rs : List (ℚ × ℚ)) (s : Sample) : List ℤ :=
  (List.range (sampleN s)).map (fun j => encIdx bs (kvec bs rs (column s j)))

/-- `torch.bincount(l, minlength)`: entry `m` counts the occurrences of `m` in
`l`; the output length is the larger of `minlength` and `1 + max l`. -/
def bincount (l : List ℤ) (minlength : ℤ) : List ℕ :=
  (List.range (max minlength.toNat ((l.map (fun x => (x + 1).toNat)).foldr max 0))).map
    (fun (m : ℕ) => l.count (m : ℤ))

/-- Row-major enumeration of all multi-indices of a shape vector. -/
def multiIndices : List ℤ → List (List ℤ)
  | [] => [[]]
  | b :: rest => (List.range b.toNat).flatMap
      (fun i => (multiIndices rest).map (fun v => (i : ℤ) :: v))

/-- Lines 166-168: slice away the first and last bin along every dimension of
the padded count tensor (stored row-major flat with strides `strides bs`). -/
def trimCounts (bs : List ℤ) (hist : List ℕ) : List ℕ :=
  (multiIndices bs).map (fun v => hist.getD (encIdx bs (v.map (· + 1))).toNat 0)

/-- Lines 140-170: the uniform-bin binning pipeline applied to resolved bin
counts `bs` and ranges `rs`: bin edges by `linspace`, per-observation linear
indices, `bincount` with `minlength = multiindex[0] * (bins[0] + 2)`, reshape
to the padded shape and, when requested, removal of the overflow bins. -/
def histEdges (bs : List ℤ) (rs : List (ℚ × ℚ)) : List (List ℚ) :=
  List.zipWith (fun (b : ℤ) (p : ℚ × ℚ) => linspace p.1 p.2 (b + 1).toNat) bs rs

/-- `minlength = multiindex[0] * (bins[0] + 2)` of line 163: the full size of
the padded count tensor. -/
def histTotal (bs : List ℤ) : ℤ := (strides bs).headD 1 * (bs.headD 0 + 2)

def histCore (bs : List ℤ) (rs : List (ℚ × ℚ)) (s : Sample) (remove_overflow : Bool) :
    HistOut :=
  if remove_overflow then
    ⟨bs, trimCounts bs (bincount (lvals bs rs s) (histTotal bs)), histEdges bs rs⟩
  else ⟨bs.map (· + 2), bincount (lvals bs rs s) (histTotal bs), histEdges bs rs⟩

/-- `histogramdd` of `utils_hists.py` (lines 11-170) on the uniform-bin path:
`bins` given as `None`, an int or a list of ints (so the custom-edges
`searchsorted` path is not taken). -/
def histogramdd (s : Sample) (bins : BinsSpec) (range : Option (List (ℚ × ℚ)))
    (weights : Option (List ℚ)) (remove_overflow : Bool) : Except HistError HistOut :=
  if (resolveBins s.length bins).any (fun b => decide (b ≤ 0)) then .error .nonpositiveBins
  else if (match range with | some rs => decide (rs.length < s.length) | none => false) then
    .error .rangeDimMismatch
  else if (effRanges s range).any (fun p => decide (p.2 < p.1)) then .error .maxLtMin
  else if (resolveBins s.length bins).length ≠ s.length then .error .binsDimMismatch
  else if weights ≠ none then .error .weightsNotNone
  else if s.length = 0 then .error .zeroDims
  else .ok (histCore (resolveBins s.length bins) (effRanges s range) s remove_overflow)

/-- Failures of `histogram2d` (python exceptions). -/
inductive Hist2dError where
  /-- `assert sample.shape[0] == 2`, line 179 -/
  | shapeAssert
  /-- `RuntimeError`: `min()`/`max()` of an empty tensor during input checking -/
  | emptyReduce
  /-- line 182: `assert sample[0].min() > xmin`; the message carries the
  offending value `sample[0].min()` and the bound `xmin` -/
  | xminTooSmall (value bound : ℚ)
  /-- line 185: `assert sample[0].max() < xmax`, message carries value and bound -/
  | xmaxTooBig (value bound : ℚ)
  /-- line 189: `assert sample[1].min() > ymin`, message carries value and bound -/
  | yminTooSmall (value bound : ℚ)
  /-- line 192: `assert sample[1].max() < ymax`, message carries value and bound -/
  | ymaxTooBig (value bound : ℚ)
  /-- `Tensor.put_` with a flat index outside the count tensor, line 204 -/
  | putIndexOutOfRange
deriving DecidableEq

/-- The four input-validation assertion failures of `histogram2d` about sample
coordinates versus range bounds. -/
def Hist2dError.isBoundViolation : Hist2dError → Bool
  | .xminTooSmall _ _ | .xmaxTooBig _ _ | .yminTooSmall _ _ | .ymaxTooBig _ _ => true
  | _ => false

/-- `histogram2d` of `utils_hists.py` (lines 173-211): the specialized
two-dimensional fast path with uniform bins and an explicit range.  Each
observation is mapped to the flat index
`ybins * ((x - xmin) / xbin_width).long() + ((y - ymin) / ybin_width).long()`
and the counts are accumulated by `put_` into a flat `xbins * ybins` tensor
(negative flat indices count from the end, indices outside the tensor raise). -/
def histogram2d (s : Sample) (bins : ℤ × ℤ) (range : (ℚ × ℚ) × (ℚ × ℚ))
    (check_input : Bool) : Except Hist2dError HistOut :=
  let xbins := bins.1
  let ybins := bins.2
  let xmin := range.1.1
  let xmax := range.1.2
  let ymin := range.2.1
  let ymax := range.2.2
  let row0 := s.headD []
  let row1 := (s.drop 1).headD []
  if check_input ∧ s.length ≠ 2 then .error .shapeAssert
  else if check_input ∧ row0 = [] then .error .emptyReduce
  else if check_input ∧ ¬ (xmin < tmin row0) then .error (.xminTooSmall (tmin row0) xmin)
  else if check_input ∧ ¬ (tmax row0 < xmax) then .error (.xmaxTooBig (tmax row0) xmax)
  else if check_input ∧ row1 = [] then .error .emptyReduce
  else if check_input ∧ ¬ (ymin < tmin row1) then .error (.yminTooSmall (tmin row1) ymin)
  else if check_input ∧ ¬ (tmax row1 < ymax) then .error (.ymaxTooBig (tmax row1) ymax)
  else
    let xw := (xmax - xmin) / xbins
    let yw := (ymax - ymin) / ybins
    let idx := List.zipWith
      (fun x y => ybins * ratLong ((x - xmin) / xw) + ratLong ((y - ymin) / yw)) row0 row1
    let size := xbins * ybins
    if idx.any (fun m => decide (m < -size ∨ size ≤ m)) then .error .putIndexOutOfRange
    else
      let idxW := idx.map (fun m => if m < 0 then size + m else m)
      .ok ⟨[xbins, ybins],
           (List.range size.toNat).map (fun (m : ℕ) => idxW.count (m : ℤ)),
           [linspace xmin xmax (xbins + 1).toNat, linspace ymin ymax (ybins + 1).toNat]⟩

/-! ## Embedding of `backboard/tracking/tracking.py`

The numeric primitives supplied by external collaborators (`torch` reductions
such as `.var()` and `.norm(2)`, `scipy.sparse.linalg.eigsh` on the
Hessian-vector-product operator, `math.sqrt`) and the helpers imported from
`backboard.tracking.utils_tracking` (`_layerwise_dot_product`,
`_exact_variance`, `_fit_quadratic`, `_get_alpha`) are passed to the tracking
functions as explicit function parameters: the tracking functions embedded
here only consume their results. -/

/-- One model parameter as seen through the autodiff collaborator: its data,
its gradient, the per-example gradients and the Hessian diagonal. -/
structure Param where
  requires_grad : Bool
  data : List ℚ
  grad : List ℚ
  grad_batch : List (List ℚ)
  diag_h : List ℚ
deriving DecidableEq

/-- The `iter_tracking` mapping of the CockpitTracker: one ordered, append-only
sequence of per-iteration values for each named signal. -/
structure IterTracking where
  f0 : List ℚ
  f1 : List ℚ
  var_f0 : List ℚ
  var_f1 : List ℚ
  df0 : List (List ℚ)
  df1 : List (List ℚ)
  var_df0 : List (List ℚ)
  var_df1 : List (List ℚ)
  grad_norms : List (List ℚ)
  dtravel : List (List ℚ)
  trace : List (List ℚ)
  max_ev : List ℚ
  d2init : List (List ℚ)
  alpha : List (Option ℚ)
deriving DecidableEq

/-- The CockpitTracker state the tracking functions operate on (`self`). -/
structure CockpitTracker where
  iter_tracking : IterTracking
  search_dir : List (List ℚ)
  parameters : List Param
  p_init : List (List ℚ)
deriving DecidableEq

/-- The `point` argument of the f/df trackers: `"0"` (start) or `"1"` (end). -/
inductive TrackPoint where
  | zero
  | one
deriving DecidableEq

/-- `[p.grad.data for p in self.parameters() if p.requires_grad]`. -/
def gradsRG (self : CockpitTracker) : List (List ℚ) :=
  self.parameters.filterMap (fun p => if p.requires_grad then some p.grad else none)

/-- Lines 24-32: `track_f` appends the batch loss to `f0` or `f1`. -/
def track_f (self : CockpitTracker) (batch_loss : ℚ) (point : TrackPoint) : CockpitTracker :=
  match point with
  | .zero => { self with iter_tracking :=
      { self.iter_tracking with f0 := self.iter_tracking.f0 ++ [batch_loss] } }
  | .one => { self with iter_tracking :=
      { self.iter_tracking with f1 := self.iter_tracking.f1 ++ [batch_loss] } }

/-- Lines 35-43: `track_var_f` appends `batch_losses.var().item()` to `var_f0`
or `var_f1`; `varFn` is the external `torch.var` reduction. -/
def track_var_f (varFn : List ℚ → ℚ) (self : CockpitTracker) (batch_losses : List ℚ)
    (point : TrackPoint) : CockpitTracker :=
  match point with
  | .zero => { self with iter_tracking :=
      { self.iter_tracking with var_f0 := self.iter_tracking.var_f0 ++ [varFn batch_losses] } }
  | .one => { self with iter_tracking :=
      { self.iter_tracking with var_f1 := self.iter_tracking.var_f1 ++ [varFn batch_losses] } }

/-- Lines 46-59: `track_df` appends
`_layerwise_dot_product(self.search_dir, grads)` to `df0` or `df1`; `ldot` is
the helper from `utils_tracking`. -/
def track_df (ldot : List (List ℚ) → List (List ℚ) → List ℚ) (self : CockpitTracker)
    (point : TrackPoint) : CockpitTracker :=
  match point with
  | .zero => { self with iter_tracking :=
      { self.iter_tracking with
        df0 := self.iter_tracking.df0 ++ [ldot self.search_dir (gradsRG self)] } }
  | .one => { self with iter_tracking :=
      { self.iter_tracking with
        df1 := self.iter_tracking.df1 ++ [ldot self.search_dir (gradsRG self)] } }

/-- `[p.grad_batch.data for p in self.parameters() if p.requires_grad]`. -/
def gradBatchRG (self : CockpitTracker) : List (List (List ℚ)) :=
  self.parameters.filterMap (fun p => if p.requires_grad then some p.grad_batch else none)

/-- Lines 62-75: `track_var_df` appends
`_exact_variance(batch_grads, self.search_dir)` to `var_df0` or `var_df1`;
`evar` is the helper from `utils_tracking`. -/
def track_var_df (evar : List (List (List ℚ)) → List (List ℚ) → List ℚ)
    (self : CockpitTracker) (point : TrackPoint) : CockpitTracker :=
  match point with
  | .zero => { self with iter_tracking :=
      { self.iter_tracking with
        var_df0 := self.iter_tracking.var_df0 ++ [evar (gradBatchRG self) self.search_dir] } }
  | .one => { self with iter_tracking :=
      { self.iter_tracking with
        var_df1 := self.iter_tracking.var_df1 ++ [evar (gradBatchRG self) self.search_dir] } }

/-- Lines 78-82: `track_grad_norms` appends the list of per-parameter gradient
L2 norms; `norm2` is the external `Tensor.norm(2)` reduction. -/
def track_grad_norms (norm2 : List ℚ → ℚ) (self : CockpitTracker) : CockpitTracker :=
  { self with iter_tracking :=
      { self.iter_tracking with
        grad_norms := self.iter_tracking.grad_norms ++
          [self.parameters.filterMap
            (fun p => if p.requires_grad then some (norm2 p.grad) else none)] } }

/-- Lines 85-97: `track_dtravel` appends
`[el * learning_rate for el in self.iter_tracking["grad_norms"][-1]]` to
`dtravel`; `grad_norms[-1]` on an empty sequence raises `IndexError` (`none`). -/
def track_dtravel (self : CockpitTracker) (learning_rate : ℚ) : Option CockpitTracker :=
  match self.iter_tracking.grad_norms.getLast? with
  | none => none
  | some gs => some { self with iter_tracking :=
      { self.iter_tracking with
        dtravel := self.iter_tracking.dtravel ++ [gs.map (fun el => el * learning_rate)] } }

/-- Lines 100-104: `track_trace` appends the list of per-parameter Hessian
diagonal sums `[p.diag_h.sum().item() for p in parameters if p.requires_grad]`. -/
def track_trace (self : CockpitTracker) : CockpitTracker :=
  { self with iter_tracking :=
      { self.iter_tracking with
        trace := self.iter_tracking.trace ++
          [self.parameters.filterMap
            (fun p => if p.requires_grad then some p.diag_h.sum else none)] } }

/-- Lines 107-120: `track_ev` appends the largest Hessian eigenvalue computed
by the external iterative solver (`eigsh` on the HVP operator built from the
batch loss and the parameters). -/
def track_ev (eigshLA : ℚ → List Param → ℚ) (self : CockpitTracker) (batch_loss : ℚ) :
    CockpitTracker :=
  { self with iter_tracking :=
      { self.iter_tracking with
        max_ev := self.iter_tracking.max_ev ++ [eigshLA batch_loss self.parameters] } }

/-- Lines 123-131: `track_d2init` appends the per-parameter L2 distances
`(init - p).norm(2)` over `zip(self.p_init, self.parameters())` filtered by
`requires_grad`; `norm2` is the external norm reduction. -/
def track_d2init (norm2 : List ℚ → ℚ) (self : CockpitTracker) : CockpitTracker :=
  { self with iter_tracking :=
      { self.iter_tracking with
        d2init := self.iter_tracking.d2init ++
          [(List.zip self.p_init self.parameters).filterMap
            (fun q => if q.2.requires_grad then
              some (norm2 (List.zipWith (fun i x => i - x) q.1 q.2.data)) else none)] }}

/-- Lines 134-166: `track_alpha` reads the last entries of `dtravel`, `f0`,
`f1`, `df0`, `df1`, `var_f0`, `var_f1`, `var_df0` and `var_df1` (raising
`IndexError`, i.e. `none`, if any is empty), aggregates the step size as
`sqrt(sum(t * t for t in dtravel[-1]))`, fits the noise-informed quadratic via
`_fit_quadratic` and appends `_get_alpha(mu, t)` to `alpha`.  `sqrtFn`,
`fitFn` (returning a fit of arbitrary type `Fit`) and `alphaFn` are the
external `math.sqrt` and the `utils_tracking` helpers. -/
def track_alpha {Fit : Type} (sqrtFn : ℚ → ℚ)
    (fitFn : ℚ → ℚ × ℚ → ℚ × ℚ → ℚ × ℚ → ℚ × ℚ → Fit)
    (alphaFn : Fit → ℚ → Option ℚ) (self : CockpitTracker) : Option CockpitTracker :=
  match self.iter_tracking.dtravel.getLast?, self.iter_tracking.f0.getLast?,
      self.iter_tracking.f1.getLast?, self.iter_tracking.df0.getLast?,
      self.iter_tracking.df1.getLast?, self.iter_tracking.var_f0.getLast?,
      self.iter_tracking.var_f1.getLast?, self.iter_tracking.var_df0.getLast?,
      self.iter_tracking.var_df1.getLast? with
  | some dt, some a0, some a1, some d0, some d1, some v0, some v1, some w0, some w1 =>
      let t := sqrtFn ((dt.map (fun x => x * x)).sum)
      let mu := fitFn t (a0, a1) (d0.sum, d1.sum) (v0, v1) (w0.sum, w1.sum)
      some { self with iter_tracking :=
        { self.iter_tracking with alpha := self.iter_tracking.alpha ++ [alphaFn mu t] } }
  | _, _, _, _, _, _, _, _, _ => none

/-! ## Basic lemmas about the numeric primitives -/

theorem ratLong_of_nonneg {q : ℚ} (h : 0 ≤ q) : ratLong q = ⌊q⌋ := if_pos h

theorem max_ratLong_zero (q : ℚ) : max (ratLong q) 0 = max ⌊q⌋ 0 := by
  unfold ratLong
  split
  · rfl
  · rename_i h
    push_neg at h
    have h1 : ⌊q⌋ < 0 := by
      rw [Int.floor_lt]
      exact_mod_cast h
    have h2 : 0 ≤ ⌊-q⌋ := Int.floor_nonneg.mpr (by linarith)
    omega

theorem clampIdx_eq_floorForm (b : ℤ) (lo hi v : ℚ) (hlt : lo < hi) :
    clampIdx b (lo, hi) v = min (max (⌊(v - lo) / (hi - lo) * b⌋ + 1) 0) (b + 1) := by
  have hw : hi - lo ≠ 0 := by intro h; apply absurd hlt; rw [sub_eq_zero] at h; simp [h]
  have harg : 1 - lo * ((b : ℚ) / (hi - lo)) + v * ((b : ℚ) / (hi - lo))
      = (v - lo) / (hi - lo) * b + 1 := by field_simp; ring
  show min (max (ratLong (1 - lo * ((b : ℚ) / (hi - lo)) + v * ((b : ℚ) / (hi - lo)))) 0)
      (b + 1) = _
  rw [harg]
  have : max (ratLong ((v - lo) / (hi - lo) * b + 1)) 0
      = max (⌊(v - lo) / (hi - lo) * b⌋ + 1) 0 := by
    rw [max_ratLong_zero]
    congr 1
    rw [show ((1 : ℚ)) = ((1 : ℤ) : ℚ) by norm_num, Int.floor_add_int]
  rw [this]

theorem clampIdx_bounds (b : ℤ) (p : ℚ × ℚ) (v : ℚ) (hb : 0 ≤ b) :
    0 ≤ clampIdx b p v ∧ clampIdx b p v ≤ b + 1 := by
  unfold clampIdx
  omega

theorem clampIdx_of_lt_min (b : ℤ) (lo hi v : ℚ) (hb : 0 < b) (hlt : lo < hi)
    (hv : v < lo) : clampIdx b (lo, hi) v = 0 := by
  rw [clampIdx_eq_floorForm b lo hi v hlt]
  have hE : (v - lo) / (hi - lo) * b < 0 := by
    apply mul_neg_of_neg_of_pos
    · apply div_neg_of_neg_of_pos <;> linarith
    · exact_mod_cast hb
  have h1 : ⌊(v - lo) / (hi - lo) * b⌋ < 0 := by
    rw [Int.floor_lt]
    exact_mod_cast hE
  omega

theorem clampIdx_of_ge_max (b : ℤ) (lo hi v : ℚ) (hb : 0 < b) (hlt : lo < hi)
    (hv : hi ≤ v) : clampIdx b (lo, hi) v = b + 1 := by
  rw [clampIdx_eq_floorForm b lo hi v hlt]
  have hr : (1 : ℚ) ≤ (v - lo) / (hi - lo) := (one_le_div (by linarith)).mpr (by linarith)
  have hE : (b : ℚ) ≤ (v - lo) / (hi - lo) * b := by
    nlinarith [show (0 : ℚ) < (b : ℚ) from by exact_mod_cast hb]
  have h1 : b ≤ ⌊(v - lo) / (hi - lo) * b⌋ := Int.le_floor.mpr hE
  omega

theorem clampIdx_of_mem (b : ℤ) (lo hi v : ℚ) (hb : 0 < b) (hlt : lo < hi)
    (h1 : lo ≤ v) (h2 : v < hi) :
    clampIdx b (lo, hi) v = ⌊(v - lo) / (hi - lo) * b⌋ + 1 ∧
      1 ≤ clampIdx b (lo, hi) v ∧ clampIdx b (lo, hi) v ≤ b := by
  have hbq : (0 : ℚ) < (b : ℚ) := by exact_mod_cast hb
  have hE0 : 0 ≤ (v - lo) / (hi - lo) * b :=
    mul_nonneg (div_nonneg (by linarith) (by linarith)) (by linarith)
  have hr : (v - lo) / (hi - lo) < 1 := (div_lt_one (by linarith)).mpr (by linarith)
  have hEb : (v - lo) / (hi - lo) * b < b := by nlinarith
  have hf0 : 0 ≤ ⌊(v - lo) / (hi - lo) * b⌋ := Int.floor_nonneg.mpr hE0
  have hfb : ⌊(v - lo) / (hi - lo) * b⌋ < b := by
    rw [Int.floor_lt]
    exact_mod_cast hEb
  rw [clampIdx_eq_floorForm b lo hi v hlt]
  omega

theorem clampIdx_core_iff (b : ℤ) (lo hi v : ℚ) (hb : 0 < b) (hlt : lo < hi) :
    (1 ≤ clampIdx b (lo, hi) v ∧ clampIdx b (lo, hi) v ≤ b) ↔ (lo ≤ v ∧ v < hi) := by
  constructor
  · intro h
    rcases lt_or_ge v lo with hv | hv
    · rw [clampIdx_of_lt_min b lo hi v hb hlt hv] at h
      omega
    · rcases lt_or_ge v hi with h2 | h2
      · exact ⟨hv, h2⟩
      · rw [clampIdx_of_ge_max b lo hi v hb hlt h2] at h
        omega
  · intro h
    exact (clampIdx_of_mem b lo hi v hb hlt h.1 h.2).2

/-! ## C3: the per-value uniform-bin index -/

/-- The spec's index formula stated literally:
`floor((value - min) / (max - min) * bins)` clamped to `[0, bins + 1]`. -/
def specAffineIndex (b : ℤ) (p : ℚ × ℚ) (v : ℚ) : ℤ :=
  min (max ⌊(v - p.1) / (p.2 - p.1) * b⌋ 0) (b + 1)

/-- C3 (counterexample): the code's uniform-bin index (`clampIdx`, the map used by
`histogramdd` on every sample value) is not the spec's
`floor((v - min) / (max - min) * bins)` clamped to `[0, bins + 1]`: for one bin
over range `(0, 1)`, the value `v = 0` (exactly at the minimum) gets code index
`1` (the first real bin: `histogramdd` on `[[0]]` with `remove_overflow=False`
returns untrimmed counts `[0, 1, 0]`), while the spec formula gives `0`, the
underflow sentinel. -/
theorem rangeEval1 : List.range 1 = [0] := by decide

theorem rangeEval2 : List.range 2 = [0, 1] := by decide

theorem rangeEval3 : List.range 3 = [0, 1, 2] := by decide

theorem rangeEval4 : List.range 4 = [0, 1, 2, 3] := by decide

theorem rangeEval9 : List.range 9 = [0, 1, 2, 3, 4, 5, 6, 7, 8] := by decide

theorem toNatEval1 : Int.toNat 1 = 1 := by decide

theorem toNatEval2 : Int.toNat 2 = 2 := by decide

theorem toNatEval3 : Int.toNat 3 = 3 := by decide

theorem toNatEval4 : Int.toNat 4 = 4 := by decide

theorem toNatEval9 : Int.toNat 9 = 9 := by decide

theorem C3_counterexample :
    clampIdx 1 (0, 1) 0 = 1 ∧ specAffineIndex 1 (0, 1) 0 = 0 ∧
      clampIdx 1 (0, 1) 0 ≠ specAffineIndex 1 (0, 1) 0 ∧
      histogramdd [[0]] (.intBins 1) (some [(0, 1)]) none false
        = .ok ⟨[3], [0, 1, 0], [[0, 1]]⟩ := by
  refine ⟨by norm_num [clampIdx, ratLong], by norm_num [specAffineIndex],
    by norm_num [clampIdx, ratLong, specAffineIndex], ?_⟩
  norm_num [histogramdd, resolveBins, effRanges, preRanges, padRange, histCore, histEdges, histTotal, lvals,
    sampleN, column, kvec, clampIdx, ratLong, encIdx, strides, prodBins, bincount,
    trimCounts, multiIndices, linspace, rangeEval1, rangeEval2, rangeEval3,
    toNatEval1, toNatEval2, toNatEval3]

/-- C3 (amended): for uniform bins, every sample value `v` in dimension `i` is
assigned the integer bin index `floor((v - min) / (max - min) * bins) + 1`
(equivalently `floor((v - min) / (max - min) * bins + 1)`), clamped to
`[0, bins + 1]`, so that every value below `min` is counted in sentinel bin `0`
and every value at or above `max` is counted in sentinel bin `bins + 1` of the
untrimmed histogram. -/
theorem C3_uniform_bin_index (b : ℤ) (lo hi v : ℚ) (hb : 0 < b) (hlt : lo < hi) :
    clampIdx b (lo, hi) v = min (max (⌊(v - lo) / (hi - lo) * b⌋ + 1) 0) (b + 1) ∧
      (v < lo → clampIdx b (lo, hi) v = 0) ∧
      (hi ≤ v → clampIdx b (lo, hi) v = b + 1) := by
  exact ⟨clampIdx_eq_floorForm b lo hi v hlt,
    fun hv => clampIdx_of_lt_min b lo hi v hb hlt hv,
    fun hv => clampIdx_of_ge_max b lo hi v hb hlt hv⟩

theorem C3_uniform_bin_index_witness :
    (0 : ℤ) < 2 ∧ (0 : ℚ) < 1 ∧
      clampIdx 2 (0, 1) (3/4) = min (max (⌊((3/4 : ℚ) - 0) / (1 - 0) * 2⌋ + 1) 0) (2 + 1) ∧
      clampIdx 2 (0, 1) (-1) = 0 ∧ clampIdx 2 (0, 1) (5/4) = 2 + 1 :=
  ⟨by decide, by norm_num,
    (C3_uniform_bin_index 2 0 1 (3/4) (by decide) (by norm_num)).1,
    (C3_uniform_bin_index 2 0 1 (-1) (by decide) (by norm_num)).2.1 (by norm_num),
    (C3_uniform_bin_index 2 0 1 (5/4) (by decide) (by norm_num)).2.2 (by norm_num)⟩

/-! ## C10: bins=None defaults to 10 bins per dimension -/

/-- C10: for every sample, range, weights and remove_overflow argument,
`histogramdd` with `bins=None` returns exactly the same histogram and edges as
with `bins=10`: the `None` branch (line 53) sets `bins = 10` and then follows
the identical int-broadcast path. -/
theorem C10_default_bins (s : Sample) (range : Option (List (ℚ × ℚ)))
    (weights : Option (List ℚ)) (ro : Bool) :
    histogramdd s .noBins range weights ro = histogramdd s (.intBins 10) range weights ro :=
  rfl

/-! ## C4: range resolution never fails -/

theorem tmin_le_tmax (l : List ℚ) : tmin l ≤ tmax l := by
  cases l with
  | nil => simp [tmin, tmax]
  | cons a t =>
    cases t with
    | nil => simp [tmin, tmax]
    | cons b t' =>
      show min b (t'.foldr min a) ≤ max b (t'.foldr max a)
      exact le_trans (min_le_left _ _) (le_max_left _ _)

theorem preRanges_none_eq (s : Sample) :
    preRanges s none = if sampleN s = 0 then s.map (fun _ => ((0 : ℚ), (1 : ℚ)))
      else s.map (fun row => (tmin row, tmax row)) := rfl

theorem preRanges_none_le (s : Sample) : ∀ p ∈ preRanges s none, p.1 ≤ p.2 := by
  intro p hp
  rw [preRanges_none_eq] at hp
  split at hp <;> simp only [List.mem_map] at hp <;> obtain ⟨row, _, rfl⟩ := hp
  · norm_num
  · exact tmin_le_tmax row

theorem effRanges_none_lt (s : Sample) : ∀ p ∈ effRanges s none, p.1 < p.2 := by
  intro p hp
  unfold effRanges at hp
  simp only [List.mem_map] at hp
  obtain ⟨q, hq, rfl⟩ := hp
  have h := preRanges_none_le s q hq
  unfold padRange
  split
  · simp only []
    linarith
  · rename_i hne
    exact lt_of_le_of_ne h hne

theorem effRanges_none_no_inv (s : Sample) :
    ((effRanges s none).any fun p => decide (p.2 < p.1)) = false := by
  rw [List.any_eq_false]
  intro p hp
  simp only [decide_eq_true_iff, not_lt]
  exact le_of_lt (effRanges_none_lt s p hp)

/-- C4: `histogramdd` never fails on range resolution when no explicit range is
given: the derived range never triggers the max-less-than-min validation error;
for an empty sample (`N = 0`) the derived range is `[0, 1]` in every dimension;
any dimension whose resolved range has `min == max` is expanded symmetrically by
`0.5` before binning; and the 1x1 sample `[[5.0]]` with `bins=1` and no explicit
range returns bin edges `[4.5, 5.5]` and counts `[1]` without raising. -/
theorem C4_range_resolution :
    (∀ (s : Sample) (bins : BinsSpec) (w : Option (List ℚ)) (ro : Bool),
        histogramdd s bins none w ro ≠ .error .maxLtMin) ∧
    (∀ s : Sample, sampleN s = 0 → ∀ pr ∈ effRanges s none, pr = ((0 : ℚ), (1 : ℚ))) ∧
    (∀ (s : Sample) (range : Option (List (ℚ × ℚ))) (i : ℕ),
        i < (preRanges s range).length →
        ((preRanges s range).getD i (0, 0)).1 = ((preRanges s range).getD i (0, 0)).2 →
        (effRanges s range).getD i (0, 0)
          = (((preRanges s range).getD i (0, 0)).1 - 1/2,
             ((preRanges s range).getD i (0, 0)).2 + 1/2)) ∧
    histogramdd [[5]] (.intBins 1) none none true = .ok ⟨[1], [1], [[9/2, 11/2]]⟩ := by
  refine ⟨?_, ?_, ?_, ?_⟩
  · intro s bins w ro
    unfold histogramdd
    simp only [effRanges_none_no_inv, Bool.false_eq_true, if_false]
    split_ifs <;> simp
  · intro s h0 pr hpr
    unfold effRanges preRanges at hpr
    rw [if_pos h0] at hpr
    simp only [List.mem_map] at hpr
    obtain ⟨q, ⟨row, _, rfl⟩, rfl⟩ := hpr
    norm_num [padRange]
  · intro s range i hi heq
    have hlen : i < (List.map padRange (preRanges s range)).length := by
      rw [List.length_map]; exact hi
    rw [effRanges, List.getD_eq_getElem _ _ hlen, List.getElem_map,
      ← List.getD_eq_getElem _ ((0 : ℚ), (0 : ℚ)) hi]
    rw [padRange, if_pos heq]
  · norm_num [histogramdd, resolveBins, effRanges, preRanges, padRange, histCore, histEdges, histTotal, lvals,
      sampleN, column, kvec, clampIdx, ratLong, encIdx, strides, prodBins, bincount,
      trimCounts, multiIndices, linspace, tmin, tmax, rangeEval1, rangeEval2, rangeEval3,
      toNatEval1, toNatEval2, toNatEval3]

theorem C4_range_resolution_witness :
    0 < (preRanges [[(5 : ℚ)]] none).length ∧
      ((preRanges [[(5 : ℚ)]] none).getD 0 (0, 0)).1
        = ((preRanges [[(5 : ℚ)]] none).getD 0 (0, 0)).2 ∧
      (effRanges [[(5 : ℚ)]] none).getD 0 (0, 0)
        = (((preRanges [[(5 : ℚ)]] none).getD 0 (0, 0)).1 - 1/2,
           ((preRanges [[(5 : ℚ)]] none).getD 0 (0, 0)).2 + 1/2) :=
  ⟨by norm_num [preRanges, sampleN], by norm_num [preRanges, sampleN, tmin, tmax],
    C4_range_resolution.2.2.1 [[(5 : ℚ)]] none 0 (by norm_num [preRanges, sampleN])
      (by norm_num [preRanges, sampleN, tmin, tmax])⟩

/-! ## C7: dtravel is the latest grad_norms entry scaled by the learning rate -/

/-- C7: whenever the `grad_norms` signal is non-empty with last entry
`[g_1, ..., g_k]`, `track_dtravel(learning_rate)` succeeds and appends exactly
`[learning_rate * g_1, ..., learning_rate * g_k]` to the `dtravel` signal,
leaving all other state unchanged (so `track_grad_norms` must have run before
`track_dtravel` in the iteration: `dtravel` is derived from the latest
`grad_norms` entry). -/
theorem C7_track_dtravel (self : CockpitTracker) (lr : ℚ) (gs : List ℚ)
    (h : self.iter_tracking.grad_norms.getLast? = some gs) :
    track_dtravel self lr = some { self with iter_tracking :=
      { self.iter_tracking with
        dtravel := self.iter_tracking.dtravel ++ [gs.map (fun g => lr * g)] } } := by
  unfold track_dtravel
  rw [h]
  have heq : gs.map (fun el => el * lr) = gs.map (fun g => lr * g) := by
    apply List.map_congr_left
    intro a _
    exact mul_comm a lr
  simp only [heq]

/-- A concrete tracker state with every signal non-empty, used to witness the
tracking-function theorems. -/
def egTracker : CockpitTracker :=
  { iter_tracking :=
      { f0 := [1], f1 := [2], var_f0 := [0], var_f1 := [0], df0 := [[1]], df1 := [[1]],
        var_df0 := [[0]], var_df1 := [[0]], grad_norms := [[3, 4]], dtravel := [[1]],
        trace := [[2]], max_ev := [5], d2init := [[1]], alpha := [some 0] }
    search_dir := [[1]]
    parameters := [{ requires_grad := true, data := [1], grad := [2], grad_batch := [[2]],
                     diag_h := [3] }]
    p_init := [[0]] }

theorem C7_track_dtravel_witness :
    egTracker.iter_tracking.grad_norms.getLast? = some [3, 4] ∧
      track_dtravel egTracker 2 = some { egTracker with iter_tracking :=
        { egTracker.iter_tracking with
          dtravel := egTracker.iter_tracking.dtravel ++ [[3, 4].map (fun g => (2 : ℚ) * g)] } } :=
  ⟨rfl, C7_track_dtravel egTracker 2 [3, 4] rfl⟩


/-! ## C8: every tracking function appends exactly one value to exactly one signal -/

theorem exists_append_self {α : Type} (l : List α) : ∃ u, l = l ++ u :=
  ⟨[], (List.append_nil l).symm⟩

theorem exists_append_one {α : Type} (l : List α) (x : α) : ∃ u, l ++ [x] = l ++ u :=
  ⟨[x], rfl⟩

/-- Total number of stored entries over all signals. -/
def sigLens (t : IterTracking) : ℕ :=
  t.f0.length + t.f1.length + t.var_f0.length + t.var_f1.length + t.df0.length +
    t.df1.length + t.var_df0.length + t.var_df1.length + t.grad_norms.length +
    t.dtravel.length + t.trace.length + t.max_ev.length + t.d2init.length + t.alpha.length

/-- `new` extends `old` by appending at the end of each signal (so every
previously stored entry is unchanged), and stores exactly one more entry in
total: together, exactly one value was appended to exactly one signal. -/
def OnlyAppends (old new : IterTracking) : Prop :=
    (∃ u, new.f0 = old.f0 ++ u) ∧
    (∃ u, new.f1 = old.f1 ++ u) ∧
    (∃ u, new.var_f0 = old.var_f0 ++ u) ∧
    (∃ u, new.var_f1 = old.var_f1 ++ u) ∧
    (∃ u, new.df0 = old.df0 ++ u) ∧
    (∃ u, new.df1 = old.df1 ++ u) ∧
    (∃ u, new.var_df0 = old.var_df0 ++ u) ∧
    (∃ u, new.var_df1 = old.var_df1 ++ u) ∧
    (∃ u, new.grad_norms = old.grad_norms ++ u) ∧
    (∃ u, new.dtravel = old.dtravel ++ u) ∧
    (∃ u, new.trace = old.trace ++ u) ∧
    (∃ u, new.max_ev = old.max_ev ++ u) ∧
    (∃ u, new.d2init = old.d2init ++ u) ∧
    (∃ u, new.alpha = old.alpha ++ u) ∧
    sigLens new = sigLens old + 1

/-- C8: each of the ten tracking functions, on a successful call, appends
exactly one value to exactly one named signal sequence of the
iteration-tracking state and leaves every previously stored entry of every
signal unchanged (the sequences are append-only). -/
theorem C8_track_functions_append_once {Fit : Type} (varFn : List ℚ → ℚ)
    (ldot : List (List ℚ) → List (List ℚ) → List ℚ)
    (evar : List (List (List ℚ)) → List (List ℚ) → List ℚ) (norm2 : List ℚ → ℚ)
    (eigshLA : ℚ → List Param → ℚ) (sqrtFn : ℚ → ℚ)
    (fitFn : ℚ → ℚ × ℚ → ℚ × ℚ → ℚ × ℚ → ℚ × ℚ → Fit) (alphaFn : Fit → ℚ → Option ℚ)
    (self : CockpitTracker) (batch_loss : ℚ) (batch_losses : List ℚ) (point : TrackPoint)
    (lr : ℚ) :
    OnlyAppends self.iter_tracking (track_f self batch_loss point).iter_tracking ∧
    OnlyAppends self.iter_tracking (track_var_f varFn self batch_losses point).iter_tracking ∧
    OnlyAppends self.iter_tracking (track_df ldot self point).iter_tracking ∧
    OnlyAppends self.iter_tracking (track_var_df evar self point).iter_tracking ∧
    OnlyAppends self.iter_tracking (track_grad_norms norm2 self).iter_tracking ∧
    (∀ s' : CockpitTracker, track_dtravel self lr = some s' →
      OnlyAppends self.iter_tracking s'.iter_tracking) ∧
    OnlyAppends self.iter_tracking (track_trace self).iter_tracking ∧
    OnlyAppends self.iter_tracking (track_ev eigshLA self batch_loss).iter_tracking ∧
    OnlyAppends self.iter_tracking (track_d2init norm2 self).iter_tracking ∧
    (∀ s' : CockpitTracker, track_alpha sqrtFn fitFn alphaFn self = some s' →
      OnlyAppends self.iter_tracking s'.iter_tracking) := by
  refine ⟨?_, ?_, ?_, ?_, ?_, ?_, ?_, ?_, ?_, ?_⟩
  · cases point
    · exact ⟨exists_append_one _ _, exists_append_self _, exists_append_self _, exists_append_self _, exists_append_self _, exists_append_self _, exists_append_self _, exists_append_self _, exists_append_self _, exists_append_self _, exists_append_self _, exists_append_self _, exists_append_self _, exists_append_self _, by simp [sigLens, track_f] <;> omega⟩
    · exact ⟨exists_append_self _, exists_append_one _ _, exists_append_self _, exists_append_self _, exists_append_self _, exists_append_self _, exists_append_self _, exists_append_self _, exists_append_self _, exists_append_self _, exists_append_self _, exists_append_self _, exists_append_self _, exists_append_self _, by simp [sigLens, track_f] <;> omega⟩
  · cases point
    · exact ⟨exists_append_self _, exists_append_self _, exists_append_one _ _, exists_append_self _, exists_append_self _, exists_append_self _, exists_append_self _, exists_append_self _, exists_append_self _, exists_append_self _, exists_append_self _, exists_append_self _, exists_append_self _, exists_append_self _, by simp [sigLens, track_var_f] <;> omega⟩
    · exact ⟨exists_append_self _, exists_append_self _, exists_append_self _, exists_append_one _ _, exists_append_self _, exists_append_self _, exists_append_self _, exists_append_self _, exists_append_self _, exists_append_self _, exists_append_self _, exists_append_self _, exists_append_self _, exists_append_self _, by simp [sigLens, track_var_f] <;> omega⟩
  · cases point
    · exact ⟨exists_append_self _, exists_append_self _, exists_append_self _, exists_append_self _, exists_append_one _ _, exists_append_self _, exists_append_self _, exists_append_self _, exists_append_self _, exists_append_self _, exists_append_self _, exists_append_self _, exists_append_self _, exists_append_self _, by simp [sigLens, track_df] <;> omega⟩
    · exact ⟨exists_append_self _, exists_append_self _, exists_append_self _, exists_append_self _, exists_append_self _, exists_append_one _ _, exists_append_self _, exists_append_self _, exists_append_self _, exists_append_self _, exists_append_self _, exists_append_self _, exists_append_self _, exists_append_self _, by simp [sigLens, track_df] <;> omega⟩
  · cases point
    · exact ⟨exists_append_self _, exists_append_self _, exists_append_self _, exists_append_self _, exists_append_self _, exists_append_self _, exists_append_one _ _, exists_append_self _, exists_append_self _, exists_append_self _, exists_append_self _, exists_append_self _, exists_append_self _, exists_append_self _, by simp [sigLens, track_var_df] <;> omega⟩
    · exact ⟨exists_append_self _, exists_append_self _, exists_append_self _, exists_append_self _, exists_append_self _, exists_append_self _, exists_append_self _, exists_append_one _ _, exists_append_self _, exists_append_self _, exists_append_self _, exists_append_self _, exists_append_self _, exists_append_self _, by simp [sigLens, track_var_df] <;> omega⟩
  · exact ⟨exists_append_self _, exists_append_self _, exists_append_self _, exists_append_self _, exists_append_self _, exists_append_self _, exists_append_self _, exists_append_self _, exists_append_one _ _, exists_append_self _, exists_append_self _, exists_append_self _, exists_append_self _, exists_append_self _, by simp [sigLens, track_grad_norms] <;> omega⟩
  · intro s' h
    unfold track_dtravel at h
    split at h
    · exact absurd h (by simp)
    · injection h with h
      subst h
      exact ⟨exists_append_self _, exists_append_self _, exists_append_self _, exists_append_self _, exists_append_self _, exists_append_self _, exists_append_self _, exists_append_self _, exists_append_self _, exists_append_one _ _, exists_append_self _, exists_append_self _, exists_append_self _, exists_append_self _, by simp [sigLens] <;> omega⟩
  · exact ⟨exists_append_self _, exists_append_self _, exists_append_self _, exists_append_self _, exists_append_self _, exists_append_self _, exists_append_self _, exists_append_self _, exists_append_self _, exists_append_self _, exists_append_one _ _, exists_append_self _, exists_append_self _, exists_append_self _, by simp [sigLens, track_trace] <;> omega⟩
  · exact ⟨exists_append_self _, exists_append_self _, exists_append_self _, exists_append_self _, exists_append_self _, exists_append_self _, exists_append_self _, exists_append_self _, exists_append_self _, exists_append_self _, exists_append_self _, exists_append_one _ _, exists_append_self _, exists_append_self _, by simp [sigLens, track_ev] <;> omega⟩
  · exact ⟨exists_append_self _, exists_append_self _, exists_append_self _, exists_append_self _, exists_append_self _, exists_append_self _, exists_append_self _, exists_append_self _, exists_append_self _, exists_append_self _, exists_append_self _, exists_append_self _, exists_append_one _ _, exists_append_self _, by simp [sigLens, track_d2init] <;> omega⟩
  · intro s' h
    unfold track_alpha at h
    split at h
    · injection h with h
      subst h
      exact ⟨exists_append_self _, exists_append_self _, exists_append_self _, exists_append_self _, exists_append_self _, exists_append_self _, exists_append_self _, exists_append_self _, exists_append_self _, exists_append_self _, exists_append_self _, exists_append_self _, exists_append_self _, exists_append_one _ _, by simp [sigLens] <;> omega⟩
    · exact absurd h (by simp)

theorem C8_track_functions_append_once_witness :
    OnlyAppends egTracker.iter_tracking ((track_f egTracker 7 .zero).iter_tracking) ∧
    (∃ s', track_dtravel egTracker 2 = some s' ∧
      OnlyAppends egTracker.iter_tracking s'.iter_tracking) ∧
    (∃ s', @track_alpha (ℚ × ℚ) (fun q => q) (fun _ _ _ _ _ => (0, 0))
        (fun _ _ => none) egTracker = some s' ∧
      OnlyAppends egTracker.iter_tracking s'.iter_tracking) := by
  have h := @C8_track_functions_append_once (ℚ × ℚ) (fun q => tmax q)
    (fun _ _ => []) (fun _ _ => []) (fun q => tmax q) (fun _ _ => 0) (fun q => q)
    (fun _ _ _ _ _ => (0, 0)) (fun _ _ => none) egTracker 7 [] .zero 2
  exact ⟨h.1, ⟨_, rfl, h.2.2.2.2.2.1 _ rfl⟩, ⟨_, rfl, h.2.2.2.2.2.2.2.2.2 _ rfl⟩⟩

/-! ## Min/max reduction lemmas -/

theorem foldr_min_mem (a : ℚ) (t : List ℚ) : t.foldr min a ∈ a :: t := by
  induction t generalizing a with
  | nil => simp
  | cons b t ih =>
    show min b (t.foldr min a) ∈ a :: b :: t
    rcases min_choice b (t.foldr min a) with h | h <;> rw [h]
    · simp
    · have h' := ih a
      simp only [List.mem_cons] at h' ⊢
      tauto

theorem foldr_min_le (a : ℚ) (t : List ℚ) : ∀ x ∈ a :: t, t.foldr min a ≤ x := by
  induction t generalizing a with
  | nil =>
    intro x hx
    simp at hx
    simp [hx]
  | cons b t ih =>
    intro x hx
    show min b (t.foldr min a) ≤ x
    simp only [List.mem_cons] at hx
    rcases hx with rfl | rfl | hx
    · exact le_trans (min_le_right _ _) (ih x x (by simp))
    · exact min_le_left _ _
    · exact le_trans (min_le_right _ _) (ih a x (by simp [hx]))

theorem foldr_max_mem (a : ℚ) (t : List ℚ) : t.foldr max a ∈ a :: t := by
  induction t generalizing a with
  | nil => simp
  | cons b t ih =>
    show max b (t.foldr max a) ∈ a :: b :: t
    rcases max_choice b (t.foldr max a) with h | h <;> rw [h]
    · simp
    · have h' := ih a
      simp only [List.mem_cons] at h' ⊢
      tauto

theorem le_foldr_max (a : ℚ) (t : List ℚ) : ∀ x ∈ a :: t, x ≤ t.foldr max a := by
  induction t generalizing a with
  | nil =>
    intro x hx
    simp at hx
    simp [hx]
  | cons b t ih =>
    intro x hx
    show x ≤ max b (t.foldr max a)
    simp only [List.mem_cons] at hx
    rcases hx with rfl | rfl | hx
    · exact le_trans (ih x x (by simp)) (le_max_right _ _)
    · exact le_max_left _ _
    · exact le_trans (ih a x (by simp [hx])) (le_max_right _ _)

theorem tmin_mem (l : List ℚ) (h : l ≠ []) : tmin l ∈ l := by
  cases l with
  | nil => exact absurd rfl h
  | cons a t => exact foldr_min_mem a t

theorem tmin_le (l : List ℚ) : ∀ x ∈ l, tmin l ≤ x := by
  cases l with
  | nil => simp
  | cons a t => exact foldr_min_le a t

theorem tmax_mem (l : List ℚ) (h : l ≠ []) : tmax l ∈ l := by
  cases l with
  | nil => exact absurd rfl h
  | cons a t => exact foldr_max_mem a t

theorem le_tmax (l : List ℚ) : ∀ x ∈ l, x ≤ tmax l := by
  cases l with
  | nil => simp
  | cons a t => exact le_foldr_max a t

theorem tmin_perm {l l' : List ℚ} (h : l.Perm l') : tmin l = tmin l' := by
  rcases eq_or_ne l [] with rfl | hne
  · rw [h.nil_eq]
  · have hne' : l' ≠ [] := fun he => hne (List.Perm.eq_nil (he ▸ h))
    apply le_antisymm
    · exact tmin_le l _ (h.mem_iff.mpr (tmin_mem l' hne'))
    · exact tmin_le l' _ (h.mem_iff.mp (tmin_mem l hne))

theorem tmax_perm {l l' : List ℚ} (h : l.Perm l') : tmax l = tmax l' := by
  rcases eq_or_ne l [] with rfl | hne
  · rw [h.nil_eq]
  · have hne' : l' ≠ [] := fun he => hne (List.Perm.eq_nil (he ▸ h))
    apply le_antisymm
    · exact le_tmax l' _ (h.mem_iff.mp (tmax_mem l hne))
    · exact le_tmax l _ (h.mem_iff.mpr (tmax_mem l' hne'))

/-! ## C9: input checking of the two-dimensional fast path -/

/-- C9: for a non-empty 2 x N sample, `histogram2d` with `check_input=True`
raises one of its four bound-violation assertion errors if and only if some
sample coordinate is less than or equal to its range's lower bound or greater
than or equal to its range's upper bound (the error value carries the offending
reduction value and the violated bound, as in the assertion messages).  In
particular the sample `[[0], [0]]` lying exactly on the boundary of range
`((0,1), (0,1))` is rejected with the error naming the coordinate
(`sample[0].min()`), the offending value `0` and the bound `0`, even though the
general `histogramdd` path counts it (total counts 1). -/
theorem C9_histogram2d_check_input (row0 row1 : List ℚ) (N : ℕ) (bins : ℤ × ℤ)
    (r : (ℚ × ℚ) × (ℚ × ℚ)) (h0 : row0.length = N) (h1 : row1.length = N) (hN : 1 ≤ N) :
    ((∃ e, histogram2d [row0, row1] bins r true = .error e ∧ e.isBoundViolation = true) ↔
      ((∃ x ∈ row0, x ≤ r.1.1 ∨ r.1.2 ≤ x) ∨ ∃ y ∈ row1, y ≤ r.2.1 ∨ r.2.2 ≤ y)) ∧
    histogram2d [[0], [0]] (1, 1) ((0, 1), (0, 1)) true = .error (.xminTooSmall 0 0) ∧
    (∃ out, histogramdd [[0], [0]] (.listBins [1, 1]) (some [(0, 1), (0, 1)]) none true
        = .ok out ∧ out.counts.sum = 1) := by
  refine ⟨?_, ?_, ?_⟩
  · obtain ⟨xb, yb⟩ := bins
    obtain ⟨⟨xmin, xmax⟩, ymin, ymax⟩ := r
    have hr0 : row0 ≠ [] := by
      intro he
      rw [he] at h0
      simp at h0
      omega
    have hr1 : row1 ≠ [] := by
      intro he
      rw [he] at h1
      simp at h1
      omega
    unfold histogram2d
    simp only [List.headD_cons, List.drop_succ_cons, List.drop_zero, List.length_cons,
      List.length_nil, true_and]
    rw [if_neg (by omega), if_neg hr0]
    by_cases c1 : xmin < tmin row0
    · rw [if_neg (not_not_intro c1)]
      by_cases c2 : tmax row0 < xmax
      · rw [if_neg (not_not_intro c2), if_neg hr1]
        by_cases c3 : ymin < tmin row1
        · rw [if_neg (not_not_intro c3)]
          by_cases c4 : tmax row1 < ymax
          · rw [if_neg (not_not_intro c4)]
            constructor
            · rintro ⟨e, he, hbv⟩
              split at he
              · injection he with he
                subst he
                simp [Hist2dError.isBoundViolation] at hbv
              · exact absurd he (by simp)
            · rintro (⟨x, hx, hle | hge⟩ | ⟨y, hy, hle | hge⟩)
              · have := tmin_le row0 x hx
                linarith
              · have := le_tmax row0 x hx
                linarith
              · have := tmin_le row1 y hy
                linarith
              · have := le_tmax row1 y hy
                linarith
          · rw [if_pos c4]
            constructor
            · intro _
              right
              push_neg at c4
              exact ⟨tmax row1, tmax_mem row1 hr1, Or.inr c4⟩
            · intro _
              exact ⟨_, rfl, rfl⟩
        · rw [if_pos c3]
          constructor
          · intro _
            right
            push_neg at c3
            exact ⟨tmin row1, tmin_mem row1 hr1, Or.inl c3⟩
          · intro _
            exact ⟨_, rfl, rfl⟩
      · rw [if_pos c2]
        constructor
        · intro _
          left
          push_neg at c2
          exact ⟨tmax row0, tmax_mem row0 hr0, Or.inr c2⟩
        · intro _
          exact ⟨_, rfl, rfl⟩
    · rw [if_pos c1]
      constructor
      · intro _
        left
        push_neg at c1
        exact ⟨tmin row0, tmin_mem row0 hr0, Or.inl c1⟩
      · intro _
        exact ⟨_, rfl, rfl⟩
  · norm_num [histogram2d, tmin, tmax]
  · refine ⟨_, rfl, ?_⟩
    norm_num [histogramdd, resolveBins, effRanges, preRanges, padRange, histCore, histEdges, histTotal, lvals,
      sampleN, column, kvec, clampIdx, ratLong, encIdx, strides, prodBins, bincount,
      trimCounts, multiIndices, linspace, rangeEval1, rangeEval2, rangeEval3, rangeEval4,
      rangeEval9, toNatEval1, toNatEval2, toNatEval3, toNatEval4, toNatEval9]

theorem C9_histogram2d_check_input_witness :
    [(0 : ℚ)].length = 1 ∧ (1 : ℕ) ≤ 1 ∧
      ((∃ e, histogram2d [[(0 : ℚ)], [0]] (1, 1) ((0, 1), (0, 1)) true = .error e ∧
          e.isBoundViolation = true) ↔
        ((∃ x ∈ [(0 : ℚ)], x ≤ 0 ∨ 1 ≤ x) ∨ ∃ y ∈ [(0 : ℚ)], y ≤ 0 ∨ 1 ≤ y)) :=
  ⟨rfl, le_refl 1,
    (C9_histogram2d_check_input [0] [0] 1 (1, 1) ((0, 1), (0, 1)) rfl rfl (le_refl 1)).1⟩

/-! ## C5: validation errors exactly characterize invalid inputs -/

/-- A list `bins` argument has one entry per sample dimension. -/
def BinsLenOK (s : Sample) (bins : BinsSpec) : Prop :=
  match bins with
  | .listBins ns => ns.length = s.length
  | _ => True

/-- An explicit `range` argument has one (min, max) pair per sample dimension. -/
def RangeLenOK (s : Sample) (range : Option (List (ℚ × ℚ))) : Prop :=
  match range with
  | some rs => rs.length = s.length
  | none => True

/-- C5: under well-formed dimensions (non-empty sample, a list `bins` of length
`D`, an explicit `range` of length `D`), `histogramdd` raises a validation
error, returning no histogram, exactly when some resolved bin count is `<= 0`,
some dimension's range has `max < min` after degenerate-range padding, or a
non-null `weights` argument is supplied; and every error it can raise is one of
those three validation errors. -/
theorem C5_validation_errors (s : Sample) (bins : BinsSpec) (range : Option (List (ℚ × ℚ)))
    (weights : Option (List ℚ)) (ro : Bool) (hs : s ≠ []) (hb : BinsLenOK s bins)
    (hr : RangeLenOK s range) :
    ((∃ e, histogramdd s bins range weights ro = .error e) ↔
      ((∃ b ∈ resolveBins s.length bins, b ≤ 0) ∨
        (∃ p ∈ effRanges s range, p.2 < p.1) ∨ weights ≠ none)) ∧
    (∀ e, histogramdd s bins range weights ro = .error e →
      e = .nonpositiveBins ∨ e = .maxLtMin ∨ e = .weightsNotNone) := by
  have lbs : (resolveBins s.length bins).length = s.length := by
    cases bins with
    | noBins => simp [resolveBins]
    | intBins n => simp [resolveBins]
    | listBins ns => exact hb
  have hD : s.length ≠ 0 := by
    intro h
    exact hs (List.length_eq_zero.mp h)
  unfold histogramdd
  split_ifs with h1 h2 h3 h4 h5
  · constructor
    · rw [List.any_eq_true] at h1
      obtain ⟨b, hbm, hble⟩ := h1
      rw [decide_eq_true_iff] at hble
      exact ⟨fun _ => Or.inl ⟨b, hbm, hble⟩, fun _ => ⟨_, rfl⟩⟩
    · intro e he
      injection he with he
      subst he
      tauto
  · exfalso
    rcases hre : range with _ | rs
    · rw [hre] at h2
      simp at h2
    · rw [hre] at h2 hr
      rw [decide_eq_true_iff] at h2
      unfold RangeLenOK at hr
      omega
  · constructor
    · rw [List.any_eq_true] at h3
      obtain ⟨p, hpm, hple⟩ := h3
      rw [decide_eq_true_iff] at hple
      exact ⟨fun _ => Or.inr (Or.inl ⟨p, hpm, hple⟩), fun _ => ⟨_, rfl⟩⟩
    · intro e he
      injection he with he
      subst he
      tauto
  · exact absurd lbs h4
  · constructor
    · exact ⟨fun _ => Or.inr (Or.inr h5), fun _ => ⟨_, rfl⟩⟩
    · intro e he
      injection he with he
      subst he
      tauto
  · constructor
    · constructor
      · rintro ⟨e, he⟩
        exact he.elim
      · rintro (⟨b, hbm, hble⟩ | ⟨p, hpm, hple⟩ | hw)
        · exact absurd (List.any_eq_true.mpr ⟨b, hbm, decide_eq_true hble⟩) h1
        · exact absurd (List.any_eq_true.mpr ⟨p, hpm, decide_eq_true hple⟩) h3
        · exact absurd hw h5
    · intro e he
      exact he.elim

theorem C5_validation_errors_witness :
    ([[(0 : ℚ)]] : Sample) ≠ [] ∧ BinsLenOK [[(0 : ℚ)]] (.intBins 1) ∧
      RangeLenOK [[(0 : ℚ)]] (some [(0, 1)]) ∧
      ((∃ e, histogramdd [[(0 : ℚ)]] (.intBins 1) (some [(0, 1)]) (some []) true
          = .error e) ↔
        ((∃ b ∈ resolveBins (List.length [[(0 : ℚ)]]) (.intBins 1), b ≤ 0) ∨
          (∃ p ∈ effRanges [[(0 : ℚ)]] (some [(0, 1)]), p.2 < p.1) ∨
          (some [] : Option (List ℚ)) ≠ none)) :=
  ⟨by simp, trivial, rfl,
    (C5_validation_errors [[(0 : ℚ)]] (.intBins 1) (some [(0, 1)]) (some []) true
      (by simp) trivial rfl).1⟩

/-! ## C6: binning is invariant under permuting the observations -/

theorem map_getD_range {α : Type} (l : List α) (d : α) :
    (List.range l.length).map (fun j => l.getD j d) = l := by
  apply List.ext_getElem
  · simp
  · intro n h1 h2
    simp only [List.getElem_map, List.getElem_range]
    exact List.getD_eq_getElem l d h2

theorem foldr_max_le_iff (b c : ℕ) (l : List ℕ) :
    l.foldr max b ≤ c ↔ b ≤ c ∧ ∀ x ∈ l, x ≤ c := by
  induction l with
  | nil => simp
  | cons a t ih =>
    simp only [List.foldr_cons, max_le_iff, ih, List.mem_cons]
    constructor
    · rintro ⟨ha, hb, ht⟩
      refine ⟨hb, fun x hx => ?_⟩
      rcases hx with rfl | hx
      · exact ha
      · exact ht x hx
    · rintro ⟨hb, hall⟩
      exact ⟨hall a (Or.inl rfl), hb, fun x hx => hall x (Or.inr hx)⟩

theorem foldr_max_perm {l l' : List ℕ} (b : ℕ) (h : l.Perm l') :
    l.foldr max b = l'.foldr max b := by
  have k1 := (foldr_max_le_iff b (l.foldr max b) l).mp le_rfl
  have k2 := (foldr_max_le_iff b (l'.foldr max b) l').mp le_rfl
  apply le_antisymm
  · rw [foldr_max_le_iff]
    exact ⟨k2.1, fun x hx => k2.2 x (h.mem_iff.mp hx)⟩
  · rw [foldr_max_le_iff]
    exact ⟨k1.1, fun x hx => k1.2 x (h.mem_iff.mpr hx)⟩

theorem bincount_perm {l l' : List ℤ} (h : l.Perm l') (T : ℤ) :
    bincount l T = bincount l' T := by
  unfold bincount
  rw [foldr_max_perm 0 (h.map _)]
  apply List.map_congr_left
  intro m _
  exact h.count_eq (m : ℤ)

/-- Reorder the observations (columns) of a sample by the index list `p`:
column `m` of the result is column `p[m]` of `s`. -/
def permuteCols (p : List ℕ) (s : Sample) : Sample :=
  s.map (fun row => p.map (fun j => row.getD j 0))

theorem column_permuteCols (p : List ℕ) (s : Sample) (j : ℕ) (hj : j < p.length) :
    column (permuteCols p s) j = column s (p.getD j 0) := by
  unfold column permuteCols
  rw [List.map_map]
  apply List.map_congr_left
  intro row _
  show (p.map (fun i => row.getD i 0)).getD j 0 = row.getD (p.getD j 0) 0
  rw [List.getD_eq_getElem _ _ (by simpa using hj), List.getElem_map,
    List.getD_eq_getElem p 0 hj]

theorem sampleN_permuteCols (p : List ℕ) (s : Sample) (hs : s ≠ []) :
    sampleN (permuteCols p s) = p.length := by
  cases s with
  | nil => exact absurd rfl hs
  | cons r t => simp [sampleN, permuteCols]

theorem lvals_permuteCols (p : List ℕ) (s : Sample) (bs : List ℤ) (rs : List (ℚ × ℚ))
    (hp : p.Perm (List.range (sampleN s))) :
    (lvals bs rs (permuteCols p s)).Perm (lvals bs rs s) := by
  rcases eq_or_ne s [] with rfl | hs
  · simp [lvals, permuteCols, sampleN]
  · have hN : p.length = sampleN s := by simpa using hp.length_eq
    unfold lvals
    rw [sampleN_permuteCols p s hs]
    have h1 : (List.range p.length).map
          (fun j => encIdx bs (kvec bs rs (column (permuteCols p s) j)))
        = p.map (fun j => encIdx bs (kvec bs rs (column s j))) := by
      have h2 : (List.range p.length).map
            (fun j => encIdx bs (kvec bs rs (column (permuteCols p s) j)))
          = (List.range p.length).map
            (fun j => encIdx bs (kvec bs rs (column s (p.getD j 0)))) := by
        apply List.map_congr_left
        intro j hj
        rw [column_permuteCols p s j (List.mem_range.mp hj)]
      rw [h2]
      conv_rhs => rw [← map_getD_range p 0]
      rw [List.map_map]
      rfl
    rw [h1]
    exact hp.map _

theorem preRanges_permuteCols (p : List ℕ) (s : Sample) (range : Option (List (ℚ × ℚ)))
    (hwf : SampleWF s) (hp : p.Perm (List.range (sampleN s))) :
    preRanges (permuteCols p s) range = preRanges s range := by
  cases range with
  | some rs =>
    unfold preRanges
    rw [show (permuteCols p s).length = s.length by simp [permuteCols]]
  | none =>
    rcases eq_or_ne s [] with rfl | hs
    · rfl
    · have hN : p.length = sampleN s := by simpa using hp.length_eq
      unfold preRanges
      rw [sampleN_permuteCols p s hs, hN]
      by_cases h0 : sampleN s = 0
      · rw [if_pos h0, if_pos h0]
        unfold permuteCols
        rw [List.map_map]
        rfl
      · rw [if_neg h0, if_neg h0]
        unfold permuteCols
        rw [List.map_map]
        apply List.map_congr_left
        intro row hrow
        have hlen : row.length = sampleN s := hwf row hrow
        have hperm : (p.map (fun j => row.getD j 0)).Perm row := by
          have h3 := hp.map (fun j => row.getD j 0)
          have h4 : (List.range (sampleN s)).map (fun j => row.getD j 0) = row := by
            rw [← hlen]
            exact map_getD_range row 0
          rw [h4] at h3
          exact h3
        show ((tmin (p.map fun j => row.getD j 0), tmax (p.map fun j => row.getD j 0)) : ℚ × ℚ)
          = (tmin row, tmax row)
        rw [tmin_perm hperm, tmax_perm hperm]

theorem histCore_permuteCols (p : List ℕ) (s : Sample) (bs : List ℤ) (rs : List (ℚ × ℚ))
    (ro : Bool) (hp : p.Perm (List.range (sampleN s))) :
    histCore bs rs (permuteCols p s) ro = histCore bs rs s ro := by
  unfold histCore
  rw [bincount_perm (lvals_permuteCols p s bs rs hp) (histTotal bs)]

/-- C6: permuting the observations (columns) of the sample tensor leaves the
entire result of `histogramdd` unchanged: the same counts, the same edges, and
the same error on invalid input, for every bin specification, range, weights
and `remove_overflow` flag. -/
theorem C6_histogramdd_perm_invariant (s : Sample) (p : List ℕ) (bins : BinsSpec)
    (range : Option (List (ℚ × ℚ))) (weights : Option (List ℚ)) (ro : Bool)
    (hwf : SampleWF s) (hp : p.Perm (List.range (sampleN s))) :
    histogramdd (permuteCols p s) bins range weights ro
      = histogramdd s bins range weights ro := by
  have hlen : (permuteCols p s).length = s.length := by simp [permuteCols]
  have heff : effRanges (permuteCols p s) range = effRanges s range :=
    congrArg (List.map padRange) (preRanges_permuteCols p s range hwf hp)
  unfold histogramdd
  rw [hlen, heff,
    histCore_permuteCols p s (resolveBins s.length bins) (effRanges s range) ro hp]

theorem C6_histogramdd_perm_invariant_witness :
    SampleWF [[(1 : ℚ), 2]] ∧ ([1, 0] : List ℕ).Perm (List.range (sampleN [[(1 : ℚ), 2]])) ∧
      histogramdd (permuteCols [1, 0] [[(1 : ℚ), 2]]) (.intBins 2) (some [(0, 3)]) none true
        = histogramdd [[(1 : ℚ), 2]] (.intBins 2) (some [(0, 3)]) none true :=
  ⟨by decide, by decide,
    C6_histogramdd_perm_invariant [[(1 : ℚ), 2]] [1, 0] (.intBins 2) (some [(0, 3)]) none true
      (by decide) (by decide)⟩

/-! ## Mixed-radix encoding lemmas for the padded count tensor -/

theorem prodBins_nil : prodBins [] = 1 := rfl

theorem prodBins_cons (b : ℤ) (bs : List ℤ) : prodBins (b :: bs) = (b + 2) * prodBins bs := by
  simp [prodBins]

theorem encIdx_nil : encIdx [] [] = 0 := rfl

theorem encIdx_cons (b : ℤ) (bs : List ℤ) (k : ℤ) (ks : List ℤ) :
    encIdx (b :: bs) (k :: ks) = prodBins bs * k + encIdx bs ks := by
  simp [encIdx, strides]

theorem encIdx_bound {bs ks : List ℤ}
    (h : List.Forall₂ (fun b k => 0 ≤ k ∧ k < b + 2) bs ks) :
    0 < prodBins bs ∧ 0 ≤ encIdx bs ks ∧ encIdx bs ks < prodBins bs := by
  induction h with
  | nil => simp [prodBins, encIdx, strides]
  | @cons b k bs ks hbk htl ih =>
    rw [encIdx_cons, prodBins_cons]
    obtain ⟨hP, he0, heP⟩ := ih
    obtain ⟨hk0, hkb⟩ := hbk
    have hb2 : 0 < b + 2 := by omega
    refine ⟨mul_pos hb2 hP, ?_, ?_⟩
    · have := mul_nonneg hP.le hk0
      omega
    · have h1 : prodBins bs * k ≤ prodBins bs * (b + 1) :=
        mul_le_mul_of_nonneg_left (by omega) hP.le
      nlinarith

theorem encIdx_inj {bs ks ks' : List ℤ}
    (h : List.Forall₂ (fun b k => 0 ≤ k ∧ k < b + 2) bs ks)
    (h' : List.Forall₂ (fun b k => 0 ≤ k ∧ k < b + 2) bs ks')
    (he : encIdx bs ks = encIdx bs ks') : ks = ks' := by
  induction bs generalizing ks ks' with
  | nil =>
    rw [List.forall₂_nil_left_iff] at h h'
    rw [h, h']
  | cons b bs ih =>
    cases h with
    | cons hb htl =>
      cases h' with
      | cons hb' htl' =>
        rename_i k kt k' kt'
        rw [encIdx_cons, encIdx_cons] at he
        have hbnd := encIdx_bound htl
        have hbnd' := encIdx_bound htl'
        have hP : 0 < prodBins bs := hbnd.1
        have hkk : k = k' := by
          rcases lt_trichotomy k k' with hlt | heq | hgt
          · exfalso
            have h1 : prodBins bs * 1 ≤ prodBins bs * (k' - k) :=
              mul_le_mul_of_nonneg_left (by omega) hP.le
            nlinarith [hbnd.2.1, hbnd.2.2, hbnd'.2.1, hbnd'.2.2]
          · exact heq
          · exfalso
            have h1 : prodBins bs * 1 ≤ prodBins bs * (k - k') :=
              mul_le_mul_of_nonneg_left (by omega) hP.le
            nlinarith [hbnd.2.1, hbnd.2.2, hbnd'.2.1, hbnd'.2.2]
        subst hkk
        have he' : encIdx bs kt = encIdx bs kt' := by
          have := he
          omega
        rw [ih htl htl' he']

theorem multiIndices_mem {bs : List ℤ} {v : List ℤ} :
    v ∈ multiIndices bs ↔ List.Forall₂ (fun b x => 0 ≤ x ∧ x < b) bs v := by
  induction bs generalizing v with
  | nil =>
    simp only [multiIndices, List.mem_singleton, List.forall₂_nil_left_iff]
  | cons b bs ih =>
    simp only [multiIndices, List.mem_flatMap, List.mem_map, List.mem_range]
    constructor
    · rintro ⟨i, hi, v', hv', rfl⟩
      refine List.Forall₂.cons ⟨by omega, by omega⟩ (ih.mp hv')
    · intro h
      cases h with
      | cons hx htl =>
        rename_i x vt
        exact ⟨x.toNat, by omega, vt, ih.mpr htl, by rw [Int.toNat_of_nonneg hx.1]⟩

theorem multiIndices_nodup (bs : List ℤ) : (multiIndices bs).Nodup := by
  induction bs with
  | nil => simp [multiIndices]
  | cons b bs ih =>
    unfold multiIndices
    rw [List.nodup_flatMap]
    constructor
    · intro i _
      exact ih.map (fun v w h => by injection h)
    · apply List.Pairwise.imp ?_ (List.nodup_range b.toNat)
      intro i j hij
      intro v hv hw
      simp only [List.mem_map] at hv hw
      obtain ⟨v1, _, rfl⟩ := hv
      obtain ⟨v2, _, he⟩ := hw
      injection he with h1 h2
      exact hij (by exact_mod_cast h1.symm)

/-! ## Counting lemmas -/

theorem countP_or_disjoint (l : List ℤ) (p q : ℤ → Bool)
    (hd : ∀ x, ¬(p x = true ∧ q x = true)) :
    l.countP (fun x => p x || q x) = l.countP p + l.countP q := by
  induction l with
  | nil => simp
  | cons a t ih =>
    rw [List.countP_cons, List.countP_cons, List.countP_cons, ih]
    have := hd a
    cases hp : p a <;> cases hq : q a <;> simp_all <;> omega

theorem sum_map_count_nodup (vs : List ℤ) (l : List ℤ) (h : vs.Nodup) :
    (vs.map (fun a => l.count a)).sum = l.countP (fun x => decide (x ∈ vs)) := by
  induction vs with
  | nil =>
    simp only [List.map_nil, List.sum_nil]
    symm
    rw [List.countP_eq_zero]
    intro a _
    simp
  | cons a vs ih =>
    rw [List.map_cons, List.sum_cons]
    obtain ⟨hna, hnd⟩ := List.nodup_cons.mp h
    rw [ih hnd]
    have hsplit : l.countP (fun x => decide (x ∈ a :: vs))
        = l.countP (fun x => (x == a) || decide (x ∈ vs)) := by
      apply List.countP_congr
      intro x _
      simp [List.mem_cons]
    rw [hsplit, countP_or_disjoint l (fun x => x == a) (fun x => decide (x ∈ vs))
      (by intro x hx; simp at hx; obtain ⟨rfl, hmem⟩ := hx; exact hna hmem)]
    rw [List.count_eq_countP]

theorem sum_range_count (l : List ℤ) (K : ℕ) :
    ((List.range K).map (fun (m : ℕ) => l.count (m : ℤ))).sum
      = l.countP (fun x => decide (0 ≤ x ∧ x < (K : ℤ))) := by
  induction K with
  | zero =>
    simp only [List.range_zero, List.map_nil, List.sum_nil]
    symm
    rw [List.countP_eq_zero]
    intro a _
    simp
  | succ K ih =>
    rw [List.range_succ, List.map_append, List.sum_append, ih]
    simp only [List.map_cons, List.map_nil, List.sum_cons, List.sum_nil, add_zero]
    have hsplit : l.countP (fun x => decide (0 ≤ x ∧ x < ((K + 1 : ℕ) : ℤ)))
        = l.countP (fun x => decide (0 ≤ x ∧ x < (K : ℤ)) || (x == (K : ℤ))) := by
      apply List.countP_congr
      intro x _
      simp only [decide_eq_true_iff, Bool.or_eq_true, beq_iff_eq]
      omega
    rw [hsplit, countP_or_disjoint l (fun x => decide (0 ≤ x ∧ x < (K : ℤ)))
      (fun x => x == (K : ℤ))
      (by intro x hx; simp only [decide_eq_true_iff, beq_iff_eq] at hx; omega)]
    rw [List.count_eq_countP]

theorem bincount_sum_eq_length {l : List ℤ} {T : ℤ}
    (hall : ∀ x ∈ l, 0 ≤ x ∧ x < T) : (bincount l T).sum = l.length := by
  unfold bincount
  rw [sum_range_count]
  rw [List.countP_eq_length]
  intro x hx
  have hb := hall x hx
  simp only [decide_eq_true_iff]
  constructor
  · exact hb.1
  · have h1 : T ≤ (max T.toNat ((l.map (fun x => (x + 1).toNat)).foldr max 0) : ℕ) := by
      omega
    omega

theorem bincount_getD (l : List ℤ) (T : ℤ) (m : ℕ) (hm : (m : ℤ) < T) :
    (bincount l T).getD m 0 = l.count (m : ℤ) := by
  unfold bincount
  have hK : m < max T.toNat ((l.map (fun x => (x + 1).toNat)).foldr max 0) := by omega
  have hK' : m < ((List.range (max T.toNat
      ((l.map (fun x => (x + 1).toNat)).foldr max 0))).map
        (fun (m : ℕ) => l.count (m : ℤ))).length := by
    simpa using hK
  rw [List.getD_eq_getElem _ _ hK', List.getElem_map, List.getElem_range]

/-! ## Per-column index vector lemmas -/

theorem kvec_forall₂ {bs : List ℤ} {rs : List (ℚ × ℚ)} {col : List ℚ}
    (hb : ∀ b ∈ bs, 0 < b) (h1 : bs.length ≤ rs.length) (h2 : bs.length ≤ col.length) :
    List.Forall₂ (fun b k => 0 ≤ k ∧ k < b + 2) bs (kvec bs rs col) := by
  induction bs generalizing rs col with
  | nil =>
    constructor
  | cons b bs ih =>
    cases rs with
    | nil => simp at h1
    | cons r rs =>
      cases col with
      | nil => simp at h2
      | cons v col =>
        show List.Forall₂ _ (b :: bs) (clampIdx b r v :: kvec bs rs col)
        refine List.Forall₂.cons ?_ (ih (fun x hx => hb x (List.mem_cons_of_mem b hx))
          (by simpa using h1) (by simpa using h2))
        have hbpos := hb b (List.mem_cons_self b bs)
        have := clampIdx_bounds b r v hbpos.le
        omega

theorem histTotal_eq_prodBins (bs : List ℤ) (h : bs ≠ []) : histTotal bs = prodBins bs := by
  cases bs with
  | nil => exact absurd rfl h
  | cons b bs =>
    show (strides (b :: bs)).headD 1 * (b + 2) = prodBins (b :: bs)
    rw [prodBins_cons]
    show prodBins bs * (b + 2) = (b + 2) * prodBins bs
    ring

theorem lvals_mem_bounds {bs : List ℤ} {rs : List (ℚ × ℚ)} {s : Sample}
    (hb : ∀ b ∈ bs, 0 < b) (h1 : bs.length ≤ rs.length) (h2 : bs.length ≤ s.length) :
    ∀ x ∈ lvals bs rs s, 0 ≤ x ∧ x < prodBins bs := by
  intro x hx
  unfold lvals at hx
  simp only [List.mem_map, List.mem_range] at hx
  obtain ⟨j, _, rfl⟩ := hx
  have hcol : bs.length ≤ (column s j).length := by
    unfold column
    simpa using h2
  have hf := kvec_forall₂ hb h1 hcol
  exact (encIdx_bound hf).2

theorem lvals_length (bs : List ℤ) (rs : List (ℚ × ℚ)) (s : Sample) :
    (lvals bs rs s).length = sampleN s := by
  unfold lvals
  simp

/-- The trimmed flat indices: the encodings of shifted multi-indices of the core box. -/
theorem trimCounts_eq_counts {bs : List ℤ} {rs : List (ℚ × ℚ)} {s : Sample}
    (hne : bs ≠ []) :
    trimCounts bs (bincount (lvals bs rs s) (histTotal bs))
      = (multiIndices bs).map
          (fun v => (lvals bs rs s).count (encIdx bs (v.map (· + 1)))) := by
  unfold trimCounts
  apply List.map_congr_left
  intro v hv
  have hvb := multiIndices_mem.mp hv
  have hv1 : List.Forall₂ (fun b k => 0 ≤ k ∧ k < b + 2) bs (v.map (· + 1)) := by
    rw [List.forall₂_map_right_iff]
    exact hvb.imp (fun b x hx => by omega)
  have hbnd := encIdx_bound hv1
  have htn : ((encIdx bs (v.map (· + 1))).toNat : ℤ) = encIdx bs (v.map (· + 1)) :=
    Int.toNat_of_nonneg hbnd.2.1
  rw [bincount_getD _ _ _ (by rw [htn, histTotal_eq_prodBins bs hne]; exact hbnd.2.2), htn]

theorem trimCounts_sum {bs : List ℤ} {rs : List (ℚ × ℚ)} {s : Sample}
    (hb : ∀ b ∈ bs, 0 < b) (hne : bs ≠ []) :
    (trimCounts bs (bincount (lvals bs rs s) (histTotal bs))).sum
      = (lvals bs rs s).countP (fun x =>
          decide (x ∈ (multiIndices bs).map (fun v => encIdx bs (v.map (· + 1))))) := by
  rw [trimCounts_eq_counts hne]
  have hmm : (multiIndices bs).map
        (fun v => (lvals bs rs s).count (encIdx bs (v.map (· + 1))))
      = ((multiIndices bs).map (fun v => encIdx bs (v.map (· + 1)))).map
          (fun a => (lvals bs rs s).count a) := by
    rw [List.map_map]
    rfl
  rw [hmm]
  apply sum_map_count_nodup
  apply List.Nodup.map_on ?_ (multiIndices_nodup bs)
  intro v hv w hw he
  have hv1 : List.Forall₂ (fun b k => 0 ≤ k ∧ k < b + 2) bs (v.map (· + 1)) := by
    rw [List.forall₂_map_right_iff]
    exact (multiIndices_mem.mp hv).imp (fun b x hx => by omega)
  have hw1 : List.Forall₂ (fun b k => 0 ≤ k ∧ k < b + 2) bs (w.map (· + 1)) := by
    rw [List.forall₂_map_right_iff]
    exact (multiIndices_mem.mp hw).imp (fun b x hx => by omega)
  have heq := encIdx_inj hv1 hw1 he
  have hinj : Function.Injective (fun x : ℤ => x + 1) := add_left_injective 1
  exact List.map_injective_iff.mpr hinj heq

theorem mem_trimImage_iff {bs ks : List ℤ}
    (hks : List.Forall₂ (fun b k => 0 ≤ k ∧ k < b + 2) bs ks) :
    (encIdx bs ks ∈ (multiIndices bs).map (fun v => encIdx bs (v.map (· + 1))))
      ↔ List.Forall₂ (fun b k => 1 ≤ k ∧ k ≤ b) bs ks := by
  constructor
  · intro h
    simp only [List.mem_map] at h
    obtain ⟨v, hv, henc⟩ := h
    have hvb := multiIndices_mem.mp hv
    have hv1 : List.Forall₂ (fun b k => 0 ≤ k ∧ k < b + 2) bs (v.map (· + 1)) := by
      rw [List.forall₂_map_right_iff]
      exact hvb.imp (fun b x hx => by omega)
    have heq := encIdx_inj hv1 hks henc
    rw [← heq, List.forall₂_map_right_iff]
    exact hvb.imp (fun b x hx => by omega)
  · intro h
    simp only [List.mem_map]
    refine ⟨ks.map (fun k => k - 1), ?_, ?_⟩
    · rw [multiIndices_mem, List.forall₂_map_right_iff]
      exact h.imp (fun b k hk => by omega)
    · congr 1
      rw [List.map_map]
      have hid : ((fun x : ℤ => x + 1) ∘ fun k : ℤ => k - 1) = id := by
        funext x
        simp
      rw [hid, List.map_id]

theorem forall₂_iff_getD {α β : Type} {R : α → β → Prop} {l₁ : List α} {l₂ : List β}
    (hlen : l₁.length = l₂.length) (d₁ : α) (d₂ : β) :
    List.Forall₂ R l₁ l₂ ↔ ∀ i < l₁.length, R (l₁.getD i d₁) (l₂.getD i d₂) := by
  induction l₁ generalizing l₂ with
  | nil =>
    cases l₂ with
    | nil => simp
    | cons b t => simp at hlen
  | cons a t ih =>
    cases l₂ with
    | nil => simp at hlen
    | cons b t₂ =>
      simp only [List.length_cons] at hlen
      rw [List.forall₂_cons, ih (by omega)]
      constructor
      · rintro ⟨hab, htl⟩ i hi
        cases i with
        | zero => simpa using hab
        | succ n =>
          simp only [List.length_cons] at hi
          simpa using htl n (by omega)
      · intro h
        refine ⟨by simpa using h 0 (by simp), fun i hi => ?_⟩
        simpa using h (i + 1) (by simpa using hi)

theorem forall_mem_iff_getD {α : Type} {l : List α} {Q : α → Prop} (d : α) :
    (∀ v ∈ l, Q v) ↔ ∀ j < l.length, Q (l.getD j d) := by
  constructor
  · intro h j hj
    rw [List.getD_eq_getElem _ _ hj]
    exact h _ (List.getElem_mem hj)
  · intro h v hv
    obtain ⟨j, hj, rfl⟩ := List.mem_iff_getElem.mp hv
    have hq := h j hj
    rwa [List.getD_eq_getElem _ _ hj] at hq

theorem kvec_getD {bs : List ℤ} {rs : List (ℚ × ℚ)} {col : List ℚ} {i : ℕ}
    (hi : i < bs.length) (h1 : bs.length ≤ rs.length) (h2 : bs.length ≤ col.length) :
    (kvec bs rs col).getD i 0 = clampIdx (bs.getD i 0) (rs.getD i (0, 0)) (col.getD i 0) := by
  induction bs generalizing rs col i with
  | nil => simp at hi
  | cons b bs ih =>
    cases rs with
    | nil => simp at h1
    | cons r rs =>
      cases col with
      | nil => simp at h2
      | cons v col =>
        cases i with
        | zero => rfl
        | succ n =>
          show (kvec bs rs col).getD n 0 = _
          exact ih (by simpa using hi) (by simpa using h1) (by simpa using h2)

theorem column_getD {s : Sample} {i j : ℕ} (hi : i < s.length) :
    (column s j).getD i 0 = (s.getD i []).getD j 0 := by
  unfold column
  rw [List.getD_eq_getElem _ _ (by simpa using hi), List.getElem_map,
    List.getD_eq_getElem s [] hi]

theorem core_membership_iff {bs : List ℤ} {rs : List (ℚ × ℚ)} {s : Sample} {j : ℕ}
    (hb : ∀ b ∈ bs, 0 < b) (hstrict : ∀ p ∈ rs, p.1 < p.2)
    (hlr : bs.length ≤ rs.length) (hls : bs.length ≤ s.length) :
    List.Forall₂ (fun b k => 1 ≤ k ∧ k ≤ b) bs (kvec bs rs (column s j))
      ↔ ∀ i < bs.length, (rs.getD i (0, 0)).1 ≤ (s.getD i []).getD j 0 ∧
          (s.getD i []).getD j 0 < (rs.getD i (0, 0)).2 := by
  have hlc : bs.length ≤ (column s j).length := by
    unfold column
    simpa using hls
  have hklen : bs.length = (kvec bs rs (column s j)).length :=
    (kvec_forall₂ hb hlr hlc).length_eq
  rw [forall₂_iff_getD hklen 0 0]
  refine forall_congr' (fun i => imp_congr_right (fun hi => ?_))
  rw [kvec_getD hi hlr hlc, column_getD (lt_of_lt_of_le hi hls)]
  have hbm : bs.getD i 0 ∈ bs := by
    rw [List.getD_eq_getElem _ _ hi]
    exact List.getElem_mem hi
  have hrm : rs.getD i (0, 0) ∈ rs := by
    rw [List.getD_eq_getElem _ _ (lt_of_lt_of_le hi hlr)]
    exact List.getElem_mem (lt_of_lt_of_le hi hlr)
  exact clampIdx_core_iff (bs.getD i 0) (rs.getD i (0, 0)).1 (rs.getD i (0, 0)).2
    ((s.getD i []).getD j 0) (hb _ hbm) (hstrict _ hrm)

theorem rowwise_iff {s : Sample} {rs : List (ℚ × ℚ)} (hwf : SampleWF s)
    (hlen : s.length = rs.length) :
    List.Forall₂ (fun (row : List ℚ) (pr : ℚ × ℚ) => ∀ v ∈ row, pr.1 ≤ v ∧ v < pr.2) s rs
      ↔ ∀ i < s.length, ∀ j < sampleN s,
          (rs.getD i (0, 0)).1 ≤ (s.getD i []).getD j 0 ∧
            (s.getD i []).getD j 0 < (rs.getD i (0, 0)).2 := by
  rw [forall₂_iff_getD hlen [] (0, 0)]
  refine forall_congr' (fun i => imp_congr_right (fun hi => ?_))
  have hrow : (s.getD i []).length = sampleN s := by
    apply hwf
    rw [List.getD_eq_getElem _ _ hi]
    exact List.getElem_mem hi
  rw [forall_mem_iff_getD (0 : ℚ), hrow]

theorem effRanges_strict {s : Sample} {range : Option (List (ℚ × ℚ))}
    (h : ∀ p ∈ effRanges s range, ¬ p.2 < p.1) : ∀ p ∈ effRanges s range, p.1 < p.2 := by
  intro p hp
  have hh := h p hp
  unfold effRanges at hp
  simp only [List.mem_map] at hp
  obtain ⟨q, hq, rfl⟩ := hp
  by_cases hqe : q.1 = q.2
  · rw [padRange, if_pos hqe]
    simp only []
    linarith
  · rw [padRange, if_neg hqe] at hh ⊢
    exact lt_of_le_of_ne (le_of_not_lt hh) hqe

theorem effRanges_length_of_not_short {s : Sample} {range : Option (List (ℚ × ℚ))}
    (h : (match range with
        | some rs => decide (rs.length < s.length)
        | none => false) = false) :
    (effRanges s range).length = s.length := by
  cases range with
  | none =>
    unfold effRanges
    rw [List.length_map, preRanges_none_eq]
    split <;> rw [List.length_map]
  | some rs =>
    unfold effRanges preRanges
    rw [List.length_map, List.length_take]
    simp only [decide_eq_false_iff_not, not_lt] at h
    omega

/-! ## C1: total counts -/

/-- C1: whenever `histogramdd` succeeds on a uniform-bin configuration (bins an
int or list of ints, range explicit or derived, no weights), the total of all
returned counts equals `N` when `remove_overflow=False`, and is at most `N`
when `remove_overflow=True`, with equality exactly when no sample value falls
outside its dimension's effective half-open range `[min, max)` (values at or
above `max` land in the removed overflow sentinel, values below `min` in the
underflow sentinel, matching the spec's sentinel-bin convention). -/
theorem C1_total_counts (s : Sample) (bins : BinsSpec) (range : Option (List (ℚ × ℚ)))
    (ro : Bool) (out : HistOut) (hwf : SampleWF s)
    (h : histogramdd s bins range none ro = .ok out) :
    (ro = false → out.counts.sum = sampleN s) ∧
    (ro = true → out.counts.sum ≤ sampleN s ∧
      (out.counts.sum = sampleN s ↔
        List.Forall₂ (fun (row : List ℚ) (pr : ℚ × ℚ) =>
          ∀ v ∈ row, pr.1 ≤ v ∧ v < pr.2) s (effRanges s range))) := by
  unfold histogramdd at h
  split_ifs at h with h1 h2 h3 h4 h5 h6 <;> try exact Except.noConfusion h
  injection h with h
  subst h
  have hb : ∀ b ∈ resolveBins s.length bins, 0 < b := by
    intro b hbm
    by_contra hc
    push_neg at hc
    exact h1 (List.any_eq_true.mpr ⟨b, hbm, decide_eq_true hc⟩)
  have hlen : (resolveBins s.length bins).length = s.length := not_ne_iff.mp h4
  have hs0 : s.length ≠ 0 := h6
  have hbne : resolveBins s.length bins ≠ [] := by
    intro hc
    apply hs0
    rw [← hlen, hc]
    rfl
  have hrl : (effRanges s range).length = s.length :=
    effRanges_length_of_not_short (Bool.eq_false_iff.mpr h2)
  have hstrict : ∀ p ∈ effRanges s range, p.1 < p.2 := by
    apply effRanges_strict
    intro p hp hc
    exact h3 (List.any_eq_true.mpr ⟨p, hp, decide_eq_true hc⟩)
  have hler : (resolveBins s.length bins).length ≤ (effRanges s range).length := by omega
  have hles : (resolveBins s.length bins).length ≤ s.length := by omega
  constructor
  · intro hro
    subst hro
    simp only [histCore, Bool.false_eq_true, if_false]
    rw [bincount_sum_eq_length, lvals_length]
    intro x hx
    have := lvals_mem_bounds hb hler hles x hx
    rw [histTotal_eq_prodBins _ hbne]
    exact this
  · intro hro
    subst hro
    simp only [histCore, if_true]
    rw [trimCounts_sum hb hbne]
    constructor
    · calc (lvals (resolveBins s.length bins) (effRanges s range) s).countP _
          ≤ (lvals (resolveBins s.length bins) (effRanges s range) s).length :=
            List.countP_le_length _
        _ = sampleN s := lvals_length _ _ _
    · rw [← lvals_length (resolveBins s.length bins) (effRanges s range) s,
        List.countP_eq_length]
      have hcolLen : ∀ j : ℕ, (resolveBins s.length bins).length ≤ (column s j).length := by
        intro j
        unfold column
        simpa using hles
      have step1 : (∀ a ∈ lvals (resolveBins s.length bins) (effRanges s range) s,
            decide (a ∈ (multiIndices (resolveBins s.length bins)).map
              (fun v => encIdx (resolveBins s.length bins) (v.map (· + 1)))) = true)
          ↔ ∀ j < sampleN s, List.Forall₂ (fun b k => 1 ≤ k ∧ k ≤ b)
              (resolveBins s.length bins)
              (kvec (resolveBins s.length bins) (effRanges s range) (column s j)) := by
        unfold lvals
        constructor
        · intro ha j hj
          have hmem := ha _ (List.mem_map.mpr ⟨j, List.mem_range.mpr hj, rfl⟩)
          rw [decide_eq_true_iff] at hmem
          exact (mem_trimImage_iff (kvec_forall₂ hb hler (hcolLen j))).mp hmem
        · intro ha a ham
          simp only [List.mem_map, List.mem_range] at ham
          obtain ⟨j, hj, rfl⟩ := ham
          rw [decide_eq_true_iff]
          exact (mem_trimImage_iff (kvec_forall₂ hb hler (hcolLen j))).mpr (ha j hj)
      rw [step1, rowwise_iff hwf hrl.symm]
      constructor
      · intro hc i hi j hj
        exact (core_membership_iff hb hstrict hler hles).mp (hc j hj) i (by omega)
      · intro hc j hj
        exact (core_membership_iff hb hstrict hler hles).mpr
          (fun i hi => hc i (by omega) j hj)

theorem C1_total_counts_witness :
    SampleWF [[(0 : ℚ), 2]] ∧
      (∃ out, histogramdd [[(0 : ℚ), 2]] (.intBins 2) (some [(0, 1)]) none true = .ok out ∧
        out.counts.sum ≤ sampleN [[(0 : ℚ), 2]]) := by
  refine ⟨by decide, ⟨_, rfl, ?_⟩⟩
  exact ((C1_total_counts [[(0 : ℚ), 2]] (.intBins 2) (some [(0, 1)]) true _
    (by decide) rfl).2 rfl).1

/-! ## C2: the two-dimensional fast path versus the general path -/

theorem flatMap_single {α β : Type} (l : List α) (g : α → β) :
    l.flatMap (fun a => [g a]) = l.map g := by
  induction l with
  | nil => rfl
  | cons a t ih => simp [ih]

theorem multiIndices_two (a b : ℤ) :
    multiIndices [a, b] = (List.range (a.toNat * b.toNat)).map
      (fun m => [((m / b.toNat : ℕ) : ℤ), ((m % b.toNat : ℕ) : ℤ)]) := by
  have hone : multiIndices [b] = (List.range b.toNat).map (fun (j : ℕ) => [(j : ℤ)]) := by
    show (List.range b.toNat).flatMap (fun i => (multiIndices []).map (fun v => (i : ℤ) :: v))
      = _
    show (List.range b.toNat).flatMap (fun i => [[(i : ℤ)]]) = _
    exact flatMap_single _ _
  show (List.range a.toNat).flatMap (fun i => (multiIndices [b]).map (fun v => (i : ℤ) :: v))
    = _
  rw [hone]
  induction a.toNat with
  | zero => simp
  | succ A ih =>
    rw [List.range_succ, List.flatMap_append, ih, Nat.succ_mul, List.range_add,
      List.map_append]
    congr 1
    · rw [List.flatMap_singleton, List.map_map, List.map_map]
      apply List.map_congr_left
      intro r hr
      rw [List.mem_range] at hr
      have hB : 0 < b.toNat := by omega
      have hdiv : (A * b.toNat + r) / b.toNat = A := by
        rw [Nat.add_comm, Nat.mul_comm A b.toNat, Nat.add_mul_div_left r A hB,
          Nat.div_eq_of_lt hr]
        omega
      have hmod : (A * b.toNat + r) % b.toNat = r := by
        rw [Nat.add_comm, Nat.mul_comm A b.toNat, Nat.add_mul_mod_self_left,
          Nat.mod_eq_of_lt hr]
      simp only [Function.comp]
      rw [hdiv, hmod]

theorem two_digit_uniq {B a c a' c' : ℤ} (hc : 0 ≤ c ∧ c < B) (hc' : 0 ≤ c' ∧ c' < B)
    (h : B * a + c = B * a' + c') : a = a' ∧ c = c' := by
  have hB : 0 < B := by omega
  have ha : a = a' := by
    rcases lt_trichotomy a a' with hlt | heq | hgt
    · exfalso
      have h1 : B * 1 ≤ B * (a' - a) := mul_le_mul_of_nonneg_left (by omega) hB.le
      nlinarith
    · exact heq
    · exfalso
      have h1 : B * 1 ≤ B * (a - a') := mul_le_mul_of_nonneg_left (by omega) hB.le
      nlinarith
  subst ha
  omega

theorem fastIdx_eq_floor (b : ℤ) (lo hi v : ℚ) (hb : 0 < b) (hlo : lo < v) (hhi : v < hi) :
    ratLong ((v - lo) / ((hi - lo) / b)) = ⌊(v - lo) / (hi - lo) * b⌋ ∧
      0 ≤ ⌊(v - lo) / (hi - lo) * b⌋ ∧ ⌊(v - lo) / (hi - lo) * b⌋ < b := by
  have hlt : lo < hi := hlo.trans hhi
  have hbq : (0 : ℚ) < (b : ℚ) := by exact_mod_cast hb
  have hw : (hi - lo) ≠ 0 := by linarith
  have harg : (v - lo) / ((hi - lo) / b) = (v - lo) / (hi - lo) * b := by
    field_simp
  have hE0 : 0 ≤ (v - lo) / (hi - lo) * b :=
    mul_nonneg (div_nonneg (by linarith) (by linarith)) (by linarith)
  have hr : (v - lo) / (hi - lo) < 1 := (div_lt_one (by linarith)).mpr (by linarith)
  have hEb : (v - lo) / (hi - lo) * b < b := by nlinarith
  refine ⟨?_, Int.floor_nonneg.mpr hE0, by rw [Int.floor_lt]; exact_mod_cast hEb⟩
  rw [harg]
  exact ratLong_of_nonneg hE0

theorem zipWith_eq_range_map (f : ℚ → ℚ → ℤ) (a b : List ℚ) (N : ℕ)
    (ha : a.length = N) (hb : b.length = N) :
    List.zipWith f a b = (List.range N).map (fun j => f (a.getD j 0) (b.getD j 0)) := by
  apply List.ext_getElem
  · simp [ha, hb]
  · intro n h1 h2
    have hn : n < N := by
      simp only [List.length_zipWith, ha, hb, min_self] at h1
      exact h1
    simp only [List.getElem_zipWith, List.getElem_map, List.getElem_range]
    rw [List.getD_eq_getElem a 0 (by omega), List.getD_eq_getElem b 0 (by omega)]

theorem toNat_mul_of_nonneg {a b : ℤ} (ha : 0 ≤ a) (hb : 0 ≤ b) :
    (a * b).toNat = a.toNat * b.toNat := by
  have h1 : ((a * b).toNat : ℤ) = ((a.toNat * b.toNat : ℕ) : ℤ) := by
    push_cast
    rw [Int.toNat_of_nonneg (mul_nonneg ha hb), Int.toNat_of_nonneg ha,
      Int.toNat_of_nonneg hb]
  exact_mod_cast h1

theorem multiIndices_length (bs : List ℤ) :
    (multiIndices bs).length = (bs.map Int.toNat).prod := by
  induction bs with
  | nil => rfl
  | cons b bs ih =>
    show ((List.range b.toNat).flatMap
        (fun (i : ℕ) => (multiIndices bs).map (fun v => (i : ℤ) :: v))).length = _
    rw [List.length_flatMap]
    have hmap : List.map
          (List.length ∘ fun (i : ℕ) => (multiIndices bs).map (fun v => (i : ℤ) :: v))
          (List.range b.toNat)
        = List.map (fun _ => (multiIndices bs).length) (List.range b.toNat) := by
      apply List.map_congr_left
      intro i _
      simp
    rw [hmap, List.map_const', List.sum_replicate, List.length_range, smul_eq_mul, ih,
      List.map_cons, List.prod_cons, Nat.mul_comm]

theorem encIdx_two (a b k0 k1 : ℤ) : encIdx [a, b] [k0, k1] = (b + 2) * k0 + k1 := by
  rw [encIdx_cons, encIdx_cons, encIdx_nil, prodBins_cons, prodBins_nil]
  ring

theorem padRange_lt_of_le {p : ℚ × ℚ} (h : p.1 ≤ p.2) : (padRange p).1 < (padRange p).2 := by
  unfold padRange
  split
  · show p.1 - 1 / 2 < p.2 + 1 / 2
    linarith
  · rename_i hne
    exact lt_of_le_of_ne h hne

theorem count_map_eq_of_iff {α β γ : Type} [DecidableEq β] [DecidableEq γ]
    (r : List α) (f : α → β) (g : α → γ) (b : β) (c : γ)
    (h : ∀ j ∈ r, (f j = b ↔ g j = c)) :
    (r.map f).count b = (r.map g).count c := by
  induction r with
  | nil => rfl
  | cons a t ih =>
    simp only [List.map_cons, List.count_cons, beq_iff_eq]
    rw [ih (fun j hj => h j (List.mem_cons_of_mem a hj))]
    have hiff := h a (List.mem_cons_self a t)
    by_cases hfa : f a = b
    · rw [if_pos hfa, if_pos (hiff.mp hfa)]
    · rw [if_neg hfa, if_neg (fun hg => hfa (hiff.mpr hg))]

/-- C2 (counterexample): on the empty 2 x 0 sample with an inverted x-range
`(1, 0)`, the fast path `histogram2d` silently succeeds and returns the
all-zero count tensor of shape `(1, 1)`, while the general path `histogramdd`
rejects the same configuration with the `Max must be greater than min` error,
so the two paths do not produce identical counts on every common input. -/
theorem C2_counterexample :
    (∃ out, histogram2d ([[], []] : Sample) (1, 1) ((1, 0), (0, 1)) false = .ok out ∧
        out.counts = [0] ∧ out.shape = [1, 1]) ∧
    histogramdd ([[], []] : Sample) (.listBins [1, 1]) (some [(1, 0), (0, 1)]) none true
      = .error .maxLtMin :=
  ⟨⟨_, rfl, rfl, rfl⟩, rfl⟩

theorem C2_empty_case (xb yb : ℤ) (xmin xmax ymin ymax : ℚ) (hxb : 0 < xb) (hyb : 0 < yb)
    (hxr : xmin ≤ xmax) (hyr : ymin ≤ ymax) :
    ∃ o1 o2,
      histogram2d [([] : List ℚ), []] (xb, yb) ((xmin, xmax), (ymin, ymax)) false = .ok o1 ∧
      histogramdd [([] : List ℚ), []] (.listBins [xb, yb])
          (some [(xmin, xmax), (ymin, ymax)]) none true = .ok o2 ∧
      o1.counts = o2.counts ∧ o1.shape = o2.shape := by
  have heff : effRanges [([] : List ℚ), []] (some [(xmin, xmax), (ymin, ymax)])
      = [padRange (xmin, xmax), padRange (ymin, ymax)] := rfl
  have hdd : histogramdd [([] : List ℚ), []] (.listBins [xb, yb])
        (some [(xmin, xmax), (ymin, ymax)]) none true
      = .ok (histCore [xb, yb] [padRange (xmin, xmax), padRange (ymin, ymax)]
          [([] : List ℚ), []] true) := by
    unfold histogramdd
    rw [heff]
    split_ifs with c1 c2 c3 c4 c5 c6
    · exact absurd c1 (by simp [resolveBins]; omega)
    · exact absurd c2 (by simp)
    · exfalso
      have hp1 := @padRange_lt_of_le (xmin, xmax) hxr
      have hp2 := @padRange_lt_of_le (ymin, ymax) hyr
      revert c3
      simp only [List.any_cons, List.any_nil, Bool.or_eq_true, Bool.false_eq_true, or_false,
        decide_eq_true_eq, not_or]
      intro hcon
      rcases hcon with h | h
      · exact absurd h (not_lt.mpr hp1.le)
      · exact absurd h (not_lt.mpr hp2.le)
    · exact absurd c4 (by simp [resolveBins])
    · exact absurd c5 (by simp)
    · exact absurd c6 (by simp)
    · rfl
  refine ⟨_, _, rfl, hdd, ?_, rfl⟩
  have hlv0 : lvals [xb, yb] [padRange (xmin, xmax), padRange (ymin, ymax)]
      [([] : List ℚ), []] = [] := rfl
  show (List.range (xb * yb).toNat).map
      (fun (m : ℕ) => (([] : List ℤ).count (m : ℤ))) = _
  rw [show (histCore [xb, yb] [padRange (xmin, xmax), padRange (ymin, ymax)]
        [([] : List ℚ), []] true).counts
      = trimCounts [xb, yb] (bincount (lvals [xb, yb]
          [padRange (xmin, xmax), padRange (ymin, ymax)] [([] : List ℚ), []])
          (histTotal [xb, yb])) from rfl,
    @trimCounts_eq_counts [xb, yb] [padRange (xmin, xmax), padRange (ymin, ymax)]
      [([] : List ℚ), []] (by simp), hlv0]
  have hz1 : (List.range (xb * yb).toNat).map
        (fun (m : ℕ) => (([] : List ℤ).count (m : ℤ)))
      = (List.range (xb * yb).toNat).map (fun (_ : ℕ) => (0 : ℕ)) := by
    apply List.map_congr_left
    intro m _
    simp
  have hz2 : (multiIndices [xb, yb]).map
        (fun v => ([] : List ℤ).count (encIdx [xb, yb] (v.map (· + 1))))
      = (multiIndices [xb, yb]).map (fun _ => (0 : ℕ)) := by
    apply List.map_congr_left
    intro v _
    simp
  rw [hz1, hz2, List.map_const', List.map_const', List.length_range, multiIndices_length]
  congr 1
  simp only [List.map_cons, List.map_nil, List.prod_cons, List.prod_nil, mul_one]
  rw [toNat_mul_of_nonneg hxb.le hyb.le]

theorem C2_strict_case (row0 row1 : List ℚ) (N : ℕ) (xb yb : ℤ)
    (xmin xmax ymin ymax : ℚ)
    (h0 : row0.length = N) (h1 : row1.length = N) (hxb : 0 < xb) (hyb : 0 < yb)
    (hxs : xmin < xmax) (hys : ymin < ymax)
    (hx : ∀ x ∈ row0, xmin < x ∧ x < xmax) (hy : ∀ y ∈ row1, ymin < y ∧ y < ymax) :
    ∃ o1 o2,
      histogram2d [row0, row1] (xb, yb) ((xmin, xmax), (ymin, ymax)) false = .ok o1 ∧
      histogramdd [row0, row1] (.listBins [xb, yb]) (some [(xmin, xmax), (ymin, ymax)])
          none true = .ok o2 ∧
      o1.counts = o2.counts ∧ o1.shape = o2.shape := by
  have hXmem : ∀ j, j < N → xmin < row0.getD j 0 ∧ row0.getD j 0 < xmax := by
    intro j hj
    have hmem : row0.getD j 0 ∈ row0 := by
      rw [List.getD_eq_getElem row0 0 (by omega)]
      exact List.getElem_mem _
    exact hx _ hmem
  have hYmem : ∀ j, j < N → ymin < row1.getD j 0 ∧ row1.getD j 0 < ymax := by
    intro j hj
    have hmem : row1.getD j 0 ∈ row1 := by
      rw [List.getD_eq_getElem row1 0 (by omega)]
      exact List.getElem_mem _
    exact hy _ hmem
  have hphi : ∀ j, j < N →
      yb * ratLong ((row0.getD j 0 - xmin) / ((xmax - xmin) / (xb : ℚ)))
          + ratLong ((row1.getD j 0 - ymin) / ((ymax - ymin) / (yb : ℚ)))
        = yb * ⌊(row0.getD j 0 - xmin) / (xmax - xmin) * (xb : ℚ)⌋
          + ⌊(row1.getD j 0 - ymin) / (ymax - ymin) * (yb : ℚ)⌋ ∧
      0 ≤ ⌊(row0.getD j 0 - xmin) / (xmax - xmin) * (xb : ℚ)⌋ ∧
      ⌊(row0.getD j 0 - xmin) / (xmax - xmin) * (xb : ℚ)⌋ < xb ∧
      0 ≤ ⌊(row1.getD j 0 - ymin) / (ymax - ymin) * (yb : ℚ)⌋ ∧
      ⌊(row1.getD j 0 - ymin) / (ymax - ymin) * (yb : ℚ)⌋ < yb := by
    intro j hj
    obtain ⟨hXl, hXu⟩ := hXmem j hj
    obtain ⟨hYl, hYu⟩ := hYmem j hj
    obtain ⟨ex, ex0, exb⟩ := fastIdx_eq_floor xb xmin xmax (row0.getD j 0) hxb hXl hXu
    obtain ⟨ey, ey0, eyb⟩ := fastIdx_eq_floor yb ymin ymax (row1.getD j 0) hyb hYl hYu
    exact ⟨by rw [ex, ey], ex0, exb, ey0, eyb⟩
  have hzip : List.zipWith (fun x y =>
        yb * ratLong ((x - xmin) / ((xmax - xmin) / (xb : ℚ)))
          + ratLong ((y - ymin) / ((ymax - ymin) / (yb : ℚ)))) row0 row1
      = (List.range N).map (fun j =>
          yb * ratLong ((row0.getD j 0 - xmin) / ((xmax - xmin) / (xb : ℚ)))
            + ratLong ((row1.getD j 0 - ymin) / ((ymax - ymin) / (yb : ℚ)))) :=
    zipWith_eq_range_map _ row0 row1 N h0 h1
  have hput : ¬(((List.range N).map (fun j =>
      yb * ratLong ((row0.getD j 0 - xmin) / ((xmax - xmin) / (xb : ℚ)))
        + ratLong ((row1.getD j 0 - ymin) / ((ymax - ymin) / (yb : ℚ))))).any
        (fun m => decide (m < -(xb * yb) ∨ xb * yb ≤ m)) = true) := by
    simp only [List.any_eq_true, List.mem_map, List.mem_range, decide_eq_true_eq]
    rintro ⟨m, ⟨j, hj, rfl⟩, hbad⟩
    obtain ⟨he, hx0, hx1, hy0, hy1⟩ := hphi j hj
    rw [he] at hbad
    rcases hbad with hneg | hbig
    · have h1 : (0 : ℤ) ≤ yb * ⌊(row0.getD j 0 - xmin) / (xmax - xmin) * (xb : ℚ)⌋ :=
        mul_nonneg hyb.le hx0
      have h2 : (0 : ℤ) ≤ xb * yb := mul_nonneg hxb.le hyb.le
      linarith
    · have h1 : yb * ⌊(row0.getD j 0 - xmin) / (xmax - xmin) * (xb : ℚ)⌋ ≤ yb * (xb - 1) :=
        mul_le_mul_of_nonneg_left (by omega) hyb.le
      have h2 : yb * (xb - 1) = yb * xb - yb := by ring
      have h3 : xb * yb = yb * xb := mul_comm xb yb
      linarith
  have hwrap : ((List.range N).map (fun j =>
        yb * ratLong ((row0.getD j 0 - xmin) / ((xmax - xmin) / (xb : ℚ)))
          + ratLong ((row1.getD j 0 - ymin) / ((ymax - ymin) / (yb : ℚ))))).map
        (fun m => if m < 0 then xb * yb + m else m)
      = (List.range N).map (fun j =>
          yb * ratLong ((row0.getD j 0 - xmin) / ((xmax - xmin) / (xb : ℚ)))
            + ratLong ((row1.getD j 0 - ymin) / ((ymax - ymin) / (yb : ℚ)))) := by
    rw [List.map_map]
    apply List.map_congr_left
    intro j hj
    rw [List.mem_range] at hj
    obtain ⟨he, hx0, hx1, hy0, hy1⟩ := hphi j hj
    simp only [Function.comp]
    have hnn : ¬(yb * ⌊(row0.getD j 0 - xmin) / (xmax - xmin) * (xb : ℚ)⌋
        + ⌊(row1.getD j 0 - ymin) / (ymax - ymin) * (yb : ℚ)⌋ < 0) := by
      have hm1 : (0 : ℤ) ≤ yb * ⌊(row0.getD j 0 - xmin) / (xmax - xmin) * (xb : ℚ)⌋ :=
        mul_nonneg hyb.le hx0
      intro hcon
      linarith
    rw [he, if_neg hnn]
  have h2d_raw : histogram2d [row0, row1] (xb, yb) ((xmin, xmax), (ymin, ymax)) false
      = if (List.zipWith (fun x y =>
            yb * ratLong ((x - xmin) / ((xmax - xmin) / (xb : ℚ)))
              + ratLong ((y - ymin) / ((ymax - ymin) / (yb : ℚ)))) row0 row1).any
            (fun m => decide (m < -(xb * yb) ∨ xb * yb ≤ m)) = true
        then Except.error Hist2dError.putIndexOutOfRange
        else Except.ok ⟨[xb, yb],
          (List.range (xb * yb).toNat).map (fun (m : ℕ) =>
            ((List.zipWith (fun x y =>
                yb * ratLong ((x - xmin) / ((xmax - xmin) / (xb : ℚ)))
                  + ratLong ((y - ymin) / ((ymax - ymin) / (yb : ℚ)))) row0 row1).map
              (fun m => if m < 0 then xb * yb + m else m)).count (m : ℤ)),
          [linspace xmin xmax (xb + 1).toNat, linspace ymin ymax (yb + 1).toNat]⟩ := rfl
  rw [hzip, hwrap, if_neg hput] at h2d_raw
  have heff : effRanges [row0, row1] (some [(xmin, xmax), (ymin, ymax)])
      = [(xmin, xmax), (ymin, ymax)] := by
    show [padRange (xmin, xmax), padRange (ymin, ymax)] = _
    unfold padRange
    rw [if_neg (show ¬((xmin, xmax).1 = (xmin, xmax).2) from ne_of_lt hxs),
      if_neg (show ¬((ymin, ymax).1 = (ymin, ymax).2) from ne_of_lt hys)]
  have hdd : histogramdd [row0, row1] (.listBins [xb, yb])
        (some [(xmin, xmax), (ymin, ymax)]) none true
      = .ok (histCore [xb, yb] [(xmin, xmax), (ymin, ymax)] [row0, row1] true) := by
    unfold histogramdd
    rw [heff]
    split_ifs with c1 c2 c3 c4 c5 c6
    · exact absurd c1 (by simp [resolveBins]; omega)
    · exact absurd c2 (by simp)
    · exfalso
      revert c3
      simp only [List.any_cons, List.any_nil, Bool.or_eq_true, Bool.false_eq_true, or_false,
        decide_eq_true_eq, not_or]
      intro hcon
      rcases hcon with h | h
      · exact absurd h (not_lt.mpr hxs.le)
      · exact absurd h (not_lt.mpr hys.le)
    · exact absurd c4 (by simp [resolveBins])
    · exact absurd c5 (by simp)
    · exact absurd c6 (by simp)
    · rfl
  have hsN : sampleN [row0, row1] = N := h0
  have hlv : lvals [xb, yb] [(xmin, xmax), (ymin, ymax)] [row0, row1]
      = (List.range N).map (fun j =>
          encIdx [xb, yb] [clampIdx xb (xmin, xmax) (row0.getD j 0),
            clampIdx yb (ymin, ymax) (row1.getD j 0)]) := by
    unfold lvals
    rw [hsN]
    apply List.map_congr_left
    intro j _
    rfl
  refine ⟨_, _, h2d_raw, hdd, ?_, rfl⟩
  show (List.range (xb * yb).toNat).map (fun (m : ℕ) =>
      ((List.range N).map (fun j =>
        yb * ratLong ((row0.getD j 0 - xmin) / ((xmax - xmin) / (xb : ℚ)))
          + ratLong ((row1.getD j 0 - ymin) / ((ymax - ymin) / (yb : ℚ))))).count (m : ℤ))
    = trimCounts [xb, yb] (bincount (lvals [xb, yb] [(xmin, xmax), (ymin, ymax)]
        [row0, row1]) (histTotal [xb, yb]))
  rw [@trimCounts_eq_counts [xb, yb] [(xmin, xmax), (ymin, ymax)] [row0, row1] (by simp),
    hlv, multiIndices_two xb yb, List.map_map, toNat_mul_of_nonneg hxb.le hyb.le]
  apply List.map_congr_left
  intro m hm
  rw [List.mem_range] at hm
  have hybz : ((yb.toNat : ℤ)) = yb := Int.toNat_of_nonneg hyb.le
  have hmz : (m : ℤ) = yb * ((m / yb.toNat : ℕ) : ℤ) + ((m % yb.toNat : ℕ) : ℤ) := by
    rw [← hybz]
    exact_mod_cast (Nat.div_add_mod m yb.toNat).symm
  have hv1z : ((m % yb.toNat : ℕ) : ℤ) < yb := by
    have hm1 : m % yb.toNat < yb.toNat := Nat.mod_lt _ (by omega)
    omega
  simp only [Function.comp, List.map_cons, List.map_nil]
  rw [encIdx_two, hmz]
  apply count_map_eq_of_iff
  intro j hj
  rw [List.mem_range] at hj
  obtain ⟨hXl, hXu⟩ := hXmem j hj
  obtain ⟨hYl, hYu⟩ := hYmem j hj
  obtain ⟨ex, ex0, exb⟩ := fastIdx_eq_floor xb xmin xmax (row0.getD j 0) hxb hXl hXu
  obtain ⟨ey, ey0, eyb⟩ := fastIdx_eq_floor yb ymin ymax (row1.getD j 0) hyb hYl hYu
  obtain ⟨cx, cx1, cx2⟩ := clampIdx_of_mem xb xmin xmax (row0.getD j 0) hxb hxs hXl.le hXu
  obtain ⟨cy, cy1, cy2⟩ := clampIdx_of_mem yb ymin ymax (row1.getD j 0) hyb hys hYl.le hYu
  simp only [ex, ey, cx, cy, encIdx_two]
  constructor
  · intro hEq
    obtain ⟨e1, e2⟩ := two_digit_uniq ⟨ey0, eyb⟩ ⟨by omega, hv1z⟩ hEq
    rw [e1, e2]
  · intro hEq
    obtain ⟨e1, e2⟩ := two_digit_uniq ⟨by omega, by omega⟩ ⟨by omega, by omega⟩ hEq
    have e1' : ⌊(row0.getD j 0 - xmin) / (xmax - xmin) * (xb : ℚ)⌋
        = ((m / yb.toNat : ℕ) : ℤ) := by omega
    have e2' : ⌊(row1.getD j 0 - ymin) / (ymax - ymin) * (yb : ℚ)⌋
        = ((m % yb.toNat : ℕ) : ℤ) := by omega
    rw [e1', e2']

/-- C2 (amended): for every 2 x N sample with uniform bins `(xb, yb)` (both
positive) and an explicit range whose per-dimension bounds satisfy
`min <= max`, if all sample values lie strictly inside their `(min, max)`
bounds, then `histogram2d` (fast path, `check_input = False`) and
`histogramdd` with `remove_overflow = True` both succeed and produce identical
count arrays of shape `(xb, yb)`. -/
theorem C2_fastpath_equiv (row0 row1 : List ℚ) (N : ℕ) (xb yb : ℤ)
    (xmin xmax ymin ymax : ℚ)
    (h0 : row0.length = N) (h1 : row1.length = N) (hxb : 0 < xb) (hyb : 0 < yb)
    (hxr : xmin ≤ xmax) (hyr : ymin ≤ ymax)
    (hx : ∀ x ∈ row0, xmin < x ∧ x < xmax) (hy : ∀ y ∈ row1, ymin < y ∧ y < ymax) :
    ∃ o1 o2,
      histogram2d [row0, row1] (xb, yb) ((xmin, xmax), (ymin, ymax)) false = .ok o1 ∧
      histogramdd [row0, row1] (.listBins [xb, yb]) (some [(xmin, xmax), (ymin, ymax)])
          none true = .ok o2 ∧
      o1.counts = o2.counts ∧ o1.shape = o2.shape := by
  rcases eq_or_lt_of_le hxr with heq | hxs
  · have hr0 : row0 = [] := by
      cases row0 with
      | nil => rfl
      | cons a t =>
        obtain ⟨hu, hv⟩ := hx a (List.mem_cons_self a t)
        rw [← heq] at hv
        exact absurd (hu.trans hv) (lt_irrefl xmin)
    have hN : N = 0 := by rw [← h0, hr0]; rfl
    have hr1 : row1 = [] := List.eq_nil_of_length_eq_zero (by rw [h1, hN])
    rw [hr0, hr1]
    exact C2_empty_case xb yb xmin xmax ymin ymax hxb hyb hxr hyr
  · rcases eq_or_lt_of_le hyr with heq | hys
    · have hr1 : row1 = [] := by
        cases row1 with
        | nil => rfl
        | cons a t =>
          obtain ⟨hu, hv⟩ := hy a (List.mem_cons_self a t)
          rw [← heq] at hv
          exact absurd (hu.trans hv) (lt_irrefl ymin)
      have hN : N = 0 := by rw [← h1, hr1]; rfl
      have hr0 : row0 = [] := List.eq_nil_of_length_eq_zero (by rw [h0, hN])
      rw [hr0, hr1]
      exact C2_empty_case xb yb xmin xmax ymin ymax hxb hyb hxr hyr
    · exact C2_strict_case row0 row1 N xb yb xmin xmax ymin ymax h0 h1 hxb hyb hxs hys hx hy

theorem C2_fastpath_equiv_witness :
    (∀ x ∈ [(1 : ℚ)], (0 : ℚ) < x ∧ x < 2) ∧
    (∃ o1 o2,
      histogram2d [[(1 : ℚ)], [1]] (1, 1) ((0, 2), (0, 2)) false = .ok o1 ∧
      histogramdd [[(1 : ℚ)], [1]] (.listBins [1, 1]) (some [(0, 2), (0, 2)]) none true
        = .ok o2 ∧
      o1.counts = o2.counts ∧ o1.shape = o2.shape) :=
  ⟨by decide, C2_fastpath_equiv [1] [1] 1 1 1 0 2 0 2 rfl rfl (by decide) (by decide)
    (by decide) (by decide) (by decide) (by decide)⟩
